import Mathlib

/-!
Verification of the perennial-cli opam-manifest editor and dependency-graph
code. Strings are modelled as lists of characters (`Str`); each Go function
is translated into an executable Lean definition, and the stated properties
are proved about those definitions.
-/

set_option maxHeartbeats 1000000

namespace Pcli

/-- Byte strings, modelled as lists of characters. -/
abbrev Str := List Char

/-- Convert a Lean string literal to the `Str` model. -/
def str (s : String) : Str := s.data

/-- The character class matched by `\s` in Go regular expressions. -/
def goIsSpace (c : Char) : Bool :=
  c == ' ' || c == '\t' || c == '\n' || c == '\x0c' || c == '\r'

/-- The character class matched by `\w` in Go regular expressions. -/
def goIsWord (c : Char) : Bool :=
  c.isAlpha || c.isDigit || c == '_'

/-- `strings.TrimSuffix`. -/
def trimSuffixStr (s suf : Str) : Str :=
  if suf.isSuffixOf s then s.take (s.length - suf.length) else s

/-- `strings.TrimPrefix` (drops `pre` from the front of `s` when present). -/
def trimPrefixStr (s pre : Str) : Str :=
  if pre.isPrefixOf s then s.drop pre.length else s

/-- Drop a single trailing carriage return (`dropCR` in `bufio.ScanLines`). -/
def dropCR (s : Str) : Str :=
  if s.getLast? = some '\r' then s.dropLast else s

/-- The line scanner of `bufio.Scanner` with `ScanLines`: split at every
newline, dropping one `\r` before each split point, with a final token for
trailing data not ended by a newline. -/
def splitLinesAux : Str → Str → List Str
  | acc, [] => if acc.isEmpty then [] else [dropCR acc.reverse]
  | acc, c :: cs =>
    if c = '\n' then dropCR acc.reverse :: splitLinesAux [] cs
    else splitLinesAux (c :: acc) cs

def splitLines (s : Str) : List Str := splitLinesAux [] s

/-- `strings.Join(lines, "\n") + "\n"`, the serializer of `OpamFile.String`. -/
def joinLines : List Str → Str
  | [] => [ '\n' ]
  | [l] => l ++ [ '\n' ]
  | l :: ls => l ++ '\n' :: joinLines ls

/-- `slices.Insert(l, i, vs...)`. -/
def insertAt (i : Nat) (vs : List α) (l : List α) : List α :=
  l.take i ++ vs ++ l.drop i

/-! ### Line classification (the regular expressions of opam_file.go) -/

/-- Matcher for `^\s*<key>\s*\[`. -/
def matchKeyBlock (key : Str) (l : Str) : Bool :=
  let l1 := l.dropWhile goIsSpace
  if key.isPrefixOf l1 then
    match (l1.drop key.length).dropWhile goIsSpace with
    | '[' :: _ => true
    | _ => false
  else false

/-- `dependsRe`: matches `^\s*depends:\s*\[`. -/
def dependsLine (l : Str) : Bool := matchKeyBlock (str "depends:") l

/-- `pinDependsRe`: matches `^\s*pin-depends:\s*\[`. -/
def pinDependsLine (l : Str) : Bool := matchKeyBlock (str "pin-depends:") l

/-- `closeBracketRe`: matches `^\s*\]`. -/
def closeBracketLine (l : Str) : Bool :=
  match l.dropWhile goIsSpace with
  | ']' :: _ => true
  | _ => false

/-- Matcher for `^\s*##\s*<word>\b.*$`. -/
def matchMarker (word : Str) (l : Str) : Bool :=
  let l1 := l.dropWhile goIsSpace
  if (str "##").isPrefixOf l1 then
    let l2 := (l1.drop 2).dropWhile goIsSpace
    if word.isPrefixOf l2 then
      match l2.drop word.length with
      | [] => true
      | c :: _ => !goIsWord c
    else false
  else false

/-- `beginIndirectRe`: matches `^\s*##\s*begin indirect\b.*$`. -/
def beginIndirectLine (l : Str) : Bool := matchMarker (str "begin indirect") l

/-- `endIndirectRe`: matches `^\s*##\s*end\b.*$`. -/
def endIndirectLine (l : Str) : Bool := matchMarker (str "end") l

/-! ### PinDepend -/

/-- `HASH_ABBREV_LENGTH`. -/
def HASH_ABBREV_LENGTH : Nat := 10

/-- `AbbreviateHash`: truncate a commit hash to the abbreviation length. -/
def AbbreviateHash (commit : Str) : Str :=
  if commit.length > HASH_ABBREV_LENGTH then commit.take HASH_ABBREV_LENGTH
  else commit

structure PinDepend where
  Package : Str
  URL : Str
  Commit : Str
deriving DecidableEq

/-- `PinDepend.Normalize`. Note the translated condition on the URL mirrors
the source's `strings.HasPrefix("https://", dep.URL)` argument order. -/
def PinDepend.Normalize (dep : PinDepend) : PinDepend :=
  let pkg := trimSuffixStr dep.Package (str ".dev")
  let url := if dep.URL.isPrefixOf (str "https://") then str "git+" ++ dep.URL
             else dep.URL
  ⟨pkg, url, AbbreviateHash dep.Commit⟩

/-- `parsePinDependLine`: match `^\s*\[\s*"([^"]+)"\s+"([^"]+)"\s*\]`, split
the second group at the first `#` into URL and commit, then `Normalize`. -/
def parsePinDependLine (l : Str) : Option PinDepend :=
  match l.dropWhile goIsSpace with
  | '[' :: r1 =>
    match r1.dropWhile goIsSpace with
    | '"' :: r2 =>
      match r2.takeWhile (fun c => c ≠ '"'), r2.dropWhile (fun c => c ≠ '"') with
      | pkg₀ :: pkg', '"' :: r3 =>
        match r3 with
        | c :: _ =>
          match goIsSpace c with
          | true =>
            (match r3.dropWhile goIsSpace with
             | '"' :: r4 =>
               match r4.takeWhile (fun c => c ≠ '"'), r4.dropWhile (fun c => c ≠ '"') with
               | full₀ :: full', '"' :: r5 =>
                 (match r5.dropWhile goIsSpace with
                  | ']' :: _ =>
                    let full : Str := full₀ :: full'
                    let url := full.takeWhile (fun c => c ≠ '#')
                    let commit : Str :=
                      match full.dropWhile (fun c => c ≠ '#') with
                      | '#' :: cs => cs
                      | _ => []
                    some (PinDepend.Normalize ⟨pkg₀ :: pkg', url, commit⟩)
                  | _ => none)
               | _, _ => none
             | _ => none)
          | false => none
        | [] => none
      | _, _ => none
    | _ => none
  | _ => none

/-- Left-pad helper for the rendered line (`%-27s`). -/
def padRight (s : Str) (w : Nat) : Str := s ++ List.replicate (w - s.length) ' '

/-- `PinDepend.String`: render a pin-depends line. -/
def PinDepend.toLine (dep : PinDepend) : Str :=
  let fullURL :=
    if dep.Commit.isEmpty then dep.URL
    else dep.URL ++ '#' :: AbbreviateHash dep.Commit
  let quotedPkg := '"' :: (dep.Package ++ str ".dev") ++ [ '"' ]
  str "  [" ++ padRight quotedPkg 27 ++ ' ' :: '"' :: fullURL ++ str "\"]"

/-! ### Regions and the scanner of findRegions -/

structure Region where
  startLine : Nat
  endLine : Nat
deriving DecidableEq

def Region.empty (r : Region) : Bool := r.endLine ≤ r.startLine

def Region.Contains (r : Region) (i : Nat) : Bool :=
  r.startLine ≤ i && i < r.endLine

/-- `[start, stop)` as a list of line numbers (`rangeIter`). -/
def rangeList (start stop : Nat) : List Nat := List.range' start (stop - start)

/-- `region.innerLineNums`: the lines strictly inside a block. -/
def innerNums (r : Region) : List Nat := rangeList (r.startLine + 1) (r.endLine - 1)

/-- The structured errors produced by `findRegions` (each carries the line
numbers interpolated into the Go error message). -/
inductive RegionError where
  | unclosedIndirect (beginLine : Nat)
  | nestedBegin (firstLine secondLine : Nat)
  | endWithoutBegin (line : Nat)
  | unclosedDepends (startLine : Nat)
  | unclosedPinDepends (startLine : Nat)
deriving DecidableEq

/-- Decimal rendering of a line number, for error-message text. -/
def natStr (n : Nat) : Str := (Nat.repr n).data

/-- The `fmt.Errorf` text of each `findRegions` error. -/
def RegionError.message : RegionError → Str
  | .unclosedIndirect j =>
      str "unclosed indirect region starting at line " ++ natStr j
  | .nestedBegin j i =>
      str "nested ## begin indirect markers at lines " ++ natStr j
        ++ str " and " ++ natStr i
  | .endWithoutBegin i =>
      str "## end marker without ## begin indirect at line " ++ natStr i
  | .unclosedDepends j =>
      str "unclosed depends block starting at line " ++ natStr j
  | .unclosedPinDepends j =>
      str "unclosed pin-depends block starting at line " ++ natStr j

structure ScanState where
  dep : Region
  pin : Region
  ind : Region
  inDep : Bool
  inPin : Bool
  indStart : Option Nat
deriving DecidableEq

def initScan : ScanState := ⟨⟨0, 0⟩, ⟨0, 0⟩, ⟨0, 0⟩, false, false, none⟩

/-- One iteration of the `findRegions` loop body, at line number `i`. -/
def scanLine (i : Nat) (line : Str) (s : ScanState) : Except RegionError ScanState :=
  if !s.inDep && dependsLine line then
    .ok { s with dep := { s.dep with startLine := i }, inDep := true }
  else if !s.inPin && pinDependsLine line then
    .ok { s with pin := { s.pin with startLine := i }, inPin := true }
  else if s.inDep && closeBracketLine line then
    .ok { s with dep := { s.dep with endLine := i + 1 }, inDep := false }
  else if s.inPin && closeBracketLine line then
    match s.indStart with
    | some j =>
      if s.ind.empty then .error (.unclosedIndirect j)
      else .ok { s with pin := { s.pin with endLine := i + 1 }, inPin := false }
    | none => .ok { s with pin := { s.pin with endLine := i + 1 }, inPin := false }
  else if s.inPin then
    if beginIndirectLine line then
      match s.indStart with
      | some j => .error (.nestedBegin j i)
      | none => .ok { s with indStart := some i }
    else if endIndirectLine line then
      match s.indStart with
      | none => .error (.endWithoutBegin i)
      | some j => .ok { s with ind := ⟨j, i + 1⟩, indStart := none }
    else .ok s
  else .ok s

def scanLines : Nat → List Str → ScanState → Except RegionError ScanState
  | _, [], s => .ok s
  | i, l :: ls, s =>
    match scanLine i l s with
    | .error e => .error e
    | .ok s' => scanLines (i + 1) ls s'

/-- `OpamFile.findRegions`, as a function of the lines: the three regions, or
the first structural error. -/
def findRegions (lines : List Str) : Except RegionError (Region × Region × Region) :=
  match scanLines 0 lines initScan with
  | .error e => .error e
  | .ok s =>
    if s.inDep then .error (.unclosedDepends s.dep.startLine)
    else if s.inPin then .error (.unclosedPinDepends s.pin.startLine)
    else .ok (s.dep, s.pin, s.ind)

/-! ### OpamFile -/

structure OpamFile where
  Lines : List Str
  depends : Region
  pinDepends : Region
  indirectPinDepends : Region
deriving DecidableEq

/-- Build an `OpamFile` from lines, recomputing the regions (`f.update()`).
The Go code panics when re-parsing fails after an internal edit; that branch
is modelled with zero regions and is proved unreachable where needed. -/
def OpamFile.withLines (lines : List Str) : OpamFile :=
  match findRegions lines with
  | .ok (d, p, ind) => ⟨lines, d, p, ind⟩
  | .error _ => ⟨lines, ⟨0, 0⟩, ⟨0, 0⟩, ⟨0, 0⟩⟩

/-- The document-level part of `Parse`: find regions and insert the synthetic
`depends` / `pin-depends` blocks when missing. -/
def parseLines (lines : List Str) : Except RegionError OpamFile :=
  match findRegions lines with
  | .error e => .error e
  | .ok (d, p, ind) =>
    let f : OpamFile := ⟨lines, d, p, ind⟩
    let f :=
      if f.depends.empty then
        let ls := insertAt f.depends.endLine [str "depends: [", str "]"] f.Lines
        OpamFile.mk ls ⟨ls.length - 2, ls.length⟩ f.pinDepends f.indirectPinDepends
      else f
    let f :=
      if f.pinDepends.empty then
        OpamFile.withLines (insertAt f.depends.endLine [str "pin-depends: [", str "]"] f.Lines)
      else f
    .ok f

/-- `Parse`: scan the text into lines, then parse regions. -/
def Parse (text : Str) : Except RegionError OpamFile := parseLines (splitLines text)

/-- `OpamFile.String`: serialize back to text. -/
def OpamFile.toText (f : OpamFile) : Str := joinLines f.Lines

/-- `OpamFile.GetPinDepends`: direct entries, skipping the indirect region. -/
def OpamFile.GetPinDepends (f : OpamFile) : List PinDepend :=
  (innerNums f.pinDepends).filterMap fun i =>
    if f.indirectPinDepends.Contains i then none
    else parsePinDependLine (f.Lines.getD i [])

/-- `OpamFile.GetIndirect`: entries inside the indirect region. -/
def OpamFile.GetIndirect (f : OpamFile) : List PinDepend :=
  if f.indirectPinDepends.empty then []
  else
    (rangeList (f.indirectPinDepends.startLine + 1) (f.indirectPinDepends.endLine - 1)).filterMap
      fun i => parsePinDependLine (f.Lines.getD i [])

/-- The search loop of `AddPinDepend`: first line inside `pinDepends` whose
entry parses with the given package name. -/
def findFirstPinEntry (f : OpamFile) (pkg : Str) : Option Nat :=
  (innerNums f.pinDepends).find? fun i =>
    match parsePinDependLine (f.Lines.getD i []) with
    | some d => d.Package == pkg
    | none => false

/-- `OpamFile.AddPinDepend`. -/
def OpamFile.AddPinDepend (f : OpamFile) (dep : PinDepend) : OpamFile :=
  if f.pinDepends.empty then f
  else
    match findFirstPinEntry f dep.Package with
    | some i =>
      if f.indirectPinDepends.Contains i then
        let f1 := OpamFile.withLines (f.Lines.eraseIdx i)
        OpamFile.withLines (insertAt (f1.pinDepends.startLine + 1) [dep.toLine] f1.Lines)
      else
        OpamFile.withLines (f.Lines.set i dep.toLine)
    | none =>
      OpamFile.withLines (insertAt (f.pinDepends.startLine + 1) [dep.toLine] f.Lines)

/-- One step of the rewrite-and-filter loop of `SetIndirect`: update a matching
entry in the non-indirect portion in place, otherwise keep the candidate. -/
def setIndirectStep (f : OpamFile) (acc : List Str × List PinDepend)
    (ind : PinDepend) : List Str × List PinDepend :=
  let found? := (rangeList (f.pinDepends.startLine + 1) (f.pinDepends.endLine - 1)).find? fun i =>
    if f.indirectPinDepends.Contains i then false
    else
      match parsePinDependLine (acc.1.getD i []) with
      | some d => d.Package == ind.Package
      | none => false
  match found? with
  | some i => (acc.1.set i ind.toLine, acc.2)
  | none => (acc.1, acc.2 ++ [ind])

/-- `OpamFile.SetIndirect`. -/
def OpamFile.SetIndirect (f : OpamFile) (indirects : List PinDepend) : OpamFile :=
  if f.pinDepends.empty then f
  else
    let r := indirects.foldl (setIndirectStep f) (f.Lines, [])
    if !f.indirectPinDepends.empty then
      let indirectLines :=
        str "  ## begin indirect" :: r.2.map PinDepend.toLine ++ [str "  ## end"]
      OpamFile.withLines
        (r.1.take f.indirectPinDepends.startLine ++ indirectLines
          ++ r.1.drop f.indirectPinDepends.endLine)
    else
      let indirectLines :=
        [] :: str "  ## begin indirect" :: r.2.map PinDepend.toLine ++ [str "  ## end"]
      OpamFile.withLines (insertAt (f.pinDepends.endLine - 1) indirectLines r.1)

instance {ε α : Type} [DecidableEq ε] [DecidableEq α] : DecidableEq (Except ε α) :=
  fun a b =>
    match a, b with
    | .ok x, .ok y =>
      match decEq x y with
      | isTrue h => isTrue (by rw [h])
      | isFalse h => isFalse (by intro hc; cases hc; exact h rfl)
    | .error x, .error y =>
      match decEq x y with
      | isTrue h => isTrue (by rw [h])
      | isFalse h => isFalse (by intro hc; cases hc; exact h rfl)
    | .ok _, .error _ => isFalse (by intro hc; cases hc)
    | .error _, .ok _ => isFalse (by intro hc; cases hc)

/-- Well-formedness: the cached regions are the ones recomputed from the
lines. Every `OpamFile` built by the library satisfies this. -/
def OpamFile.WF (f : OpamFile) : Prop :=
  findRegions f.Lines = .ok (f.depends, f.pinDepends, f.indirectPinDepends)

instance (f : OpamFile) : Decidable f.WF := by
  unfold OpamFile.WF; infer_instance

/-! ### update.go: hash extension and indirect-dependency resolution -/

/-- `packagesWithoutPinDepends`: leaf packages skipped without any fetch. -/
def packagesWithoutPinDepends (pkg : Str) : Bool :=
  pkg == str "coq-record-update" || pkg == str "rocq-stdpp"
    || pkg == str "rocq-iris" || pkg == str "iris-named-props"

/-- The fetch collaborator (package `git`): `ResolveCommit` and `GetFile`.
Errors are the collaborator's message strings. -/
structure GitOracle where
  resolveCommit : Str → Str → Except Str Str
  getFile : Str → Str → Str → Except Str Str

/-- Modelled from the spec: `PinDepend.BaseUrl` is not under src/ (only its
caller `ExtendCommitHash` is); per §3 the URL's on-disk scheme prefix
(`git+`) is stripped. -/
def PinDepend.BaseUrl (dep : PinDepend) : Str := trimPrefixStr dep.URL (str "git+")

/-- `PinDepend.ExtendCommitHash`: resolve an abbreviated hash to a full one.
Returns whether the hash changed, together with the (possibly updated) dep. -/
def ExtendCommitHash (o : GitOracle) (dep : PinDepend) :
    Except Str (Bool × PinDepend) :=
  if dep.Commit.isEmpty || dep.Commit.length == 40 then .ok (false, dep)
  else
    match o.resolveCommit dep.BaseUrl dep.Commit with
    | .error e => .error e
    | .ok full =>
      if full ≠ dep.Commit then .ok (true, { dep with Commit := full })
      else .ok (false, dep)

/-- `fetchOpamFile` wrapped into `PinDepend.FetchDependencies`: skip leaf
packages, fetch `<pkg>.opam` at the pinned commit, parse it, and return its
direct and indirect pin-depends. -/
def FetchDependencies (o : GitOracle) (dep : PinDepend) :
    Except Str (List PinDepend) :=
  if packagesWithoutPinDepends dep.Package then .ok []
  else
    match o.getFile dep.URL dep.Commit (dep.Package ++ str ".opam") with
    | .error e => .error (str "failed to fetch opam file: " ++ e)
    | .ok data =>
      match Parse data with
      | .error pe => .error (str "failed to parse opam file: " ++ pe.message)
      | .ok file => .ok (file.GetPinDepends ++ file.GetIndirect)

/-- The hash-extension loop at the top of `UpdateIndirectDependencies`: for
each direct dependency, extend its hash and upsert the rewritten entry.
Returns the first error (with the file state at that point), the updated
file, and the `changed` flag. -/
def extendLoop (o : GitOracle) :
    List PinDepend → OpamFile → Bool → (Except Str Unit) × OpamFile × Bool
  | [], f, changed => (.ok (), f, changed)
  | dep :: rest, f, changed =>
    match ExtendCommitHash o dep with
    | .error e => (.error e, f, changed)
    | .ok (extended, dep') =>
      if extended then extendLoop o rest (f.AddPinDepend dep') true
      else extendLoop o rest f changed

/-- The body of the dedup loop in `UpdateIndirectDependencies`: skip a
candidate whose package was already seen, otherwise record it. -/
def dedupStep (sa : List Str × List PinDepend) (nd : PinDepend) :
    List Str × List PinDepend :=
  if nd.Package ∈ sa.1 then sa
  else (nd.Package :: sa.1, sa.2 ++ [nd])

/-- The fetch-and-dedup loop of `UpdateIndirectDependencies`: fan out over
the direct dependencies, keeping the first occurrence of each package. -/
def fetchLoop (o : GitOracle) :
    List PinDepend → List Str → List PinDepend → Except Str (List PinDepend)
  | [], _, acc => .ok acc
  | dep :: rest, seen, acc =>
    match FetchDependencies o dep with
    | .error e => .error e
    | .ok newIndirects =>
      let sa := newIndirects.foldl dedupStep (seen, acc)
      fetchLoop o rest sa.1 sa.2

/-- Ordering used by `slices.SortFunc`: compare package names with the
lexicographic string order. -/
def pkgLe (a b : PinDepend) : Prop := a.Package ≤ b.Package

instance : DecidableRel pkgLe := fun a b => by
  unfold pkgLe; infer_instance

instance : IsTrans PinDepend pkgLe := ⟨fun _ _ _ h1 h2 => le_trans h1 h2⟩

instance : IsTotal PinDepend pkgLe := ⟨fun a b => le_total a.Package b.Package⟩

/-- The `slices.SortFunc` call: sort by package name. The inputs it receives
are deduplicated by package, so any comparison sort yields the same list;
insertion sort is used as the model. -/
def sortIndirects (l : List PinDepend) : List PinDepend :=
  l.insertionSort pkgLe

/-- `OpamFile.UpdateIndirectDependencies`. The Go method mutates `f` in
place and returns `(changed, error)`; here the final file state is returned
alongside the result so that failure paths keep their intermediate state. -/
def UpdateIndirectDependencies (o : GitOracle) (f : OpamFile) :
    (Except Str Bool) × OpamFile :=
  match extendLoop o f.GetPinDepends f false with
  | (.error e, f1, _) => (.error e, f1)
  | (.ok _, f1, changed) =>
    let oldIndirects := f1.GetIndirect
    match fetchLoop o f1.GetPinDepends [] [] with
    | .error e => (.error e, f1)
    | .ok indirects =>
      let sorted := sortIndirects indirects
      (.ok (changed || decide (sorted ≠ oldIndirects)), f1.SetIndirect sorted)

/-! ### Spec-side definitions for the resolver pipeline (claim C3) -/

/-- Modelled from the spec (§4.3): the candidate indirect entries are the
concatenation, over the direct dependencies in file order, of each
dependency's own direct and indirect entries (one fan-out level, a
candidate's dependencies are never re-expanded); the first fetch or parse
failure aborts. -/
def collectCandidates (o : GitOracle) : List PinDepend → Except Str (List PinDepend)
  | [] => .ok []
  | d :: rest =>
    match FetchDependencies o d with
    | .error e => .error e
    | .ok cs =>
      match collectCandidates o rest with
      | .error e => .error e
      | .ok rs => .ok (cs ++ rs)

/-- Modelled from the spec (§4.3): keep only the first occurrence of each
package name, in first-seen order. -/
def dedupFirstSeen (l : List PinDepend) : List PinDepend :=
  l.foldl (fun acc d =>
    if acc.any (fun a => a.Package == d.Package) then acc else acc ++ [d]) []

/-! ### Spec-side failure classification for parsing (claim C6) -/

inductive SpecFail where
  | unclosedDepends (startLine : Nat)
  | unclosedPinDepends (startLine : Nat)
  | endWithoutBegin (line : Nat)
  | nestedBegin (firstLine secondLine : Nat)
  | unclosedIndirect (beginLine : Nat)
deriving DecidableEq

structure SpecScan where
  inDep : Bool
  inPin : Bool
  depStart : Nat
  pinStart : Nat
  indOpen : Option Nat
  indClosed : Bool
deriving DecidableEq

def specInit : SpecScan := ⟨false, false, 0, 0, none, false⟩

/-- Modelled from the spec (§4.1 / claim C6): one step of the failure
classifier. It tracks only which blocks are open and whether an indirect
region has been completed, and reports the failure class with its line
numbers. -/
def specStep (i : Nat) (line : Str) (st : SpecScan) : Except SpecFail SpecScan :=
  if !st.inDep && dependsLine line then
    .ok { st with inDep := true, depStart := i }
  else if !st.inPin && pinDependsLine line then
    .ok { st with inPin := true, pinStart := i }
  else if st.inDep && closeBracketLine line then
    .ok { st with inDep := false }
  else if st.inPin && closeBracketLine line then
    match st.indOpen with
    | some j =>
      if st.indClosed then .ok { st with inPin := false }
      else .error (.unclosedIndirect j)
    | none => .ok { st with inPin := false }
  else if st.inPin then
    if beginIndirectLine line then
      match st.indOpen with
      | some j => .error (.nestedBegin j i)
      | none => .ok { st with indOpen := some i }
    else if endIndirectLine line then
      match st.indOpen with
      | none => .error (.endWithoutBegin i)
      | some _ => .ok { st with indOpen := none, indClosed := true }
    else .ok st
  else .ok st

def specSteps : Nat → List Str → SpecScan → Except SpecFail SpecScan
  | _, [], st => .ok st
  | i, l :: ls, st =>
    match specStep i l st with
    | .error e => .error e
    | .ok st' => specSteps (i + 1) ls st'

/-- Modelled from the spec (claim C6): the failure class of an input, or
`none` when region parsing succeeds. -/
def specClassify (lines : List Str) : Option SpecFail :=
  match specSteps 0 lines specInit with
  | .error e => some e
  | .ok st =>
    if st.inDep then some (.unclosedDepends st.depStart)
    else if st.inPin then some (.unclosedPinDepends st.pinStart)
    else none

/-- The failure class of a `findRegions` error. -/
def errMap : RegionError → SpecFail
  | .unclosedIndirect j => .unclosedIndirect j
  | .nestedBegin j i => .nestedBegin j i
  | .endWithoutBegin i => .endWithoutBegin i
  | .unclosedDepends j => .unclosedDepends j
  | .unclosedPinDepends j => .unclosedPinDepends j

/-- The failure class of a `findRegions` outcome, for comparison with
`specClassify`. -/
def errClass : Except RegionError (Region × Region × Region) → Option SpecFail
  | .ok _ => none
  | .error e => some (errMap e)

/-- The correspondence between a scanner state and a classifier state. -/
def scanRel (i : Nat) (s : ScanState) (st : SpecScan) : Prop :=
  s.inDep = st.inDep ∧ s.inPin = st.inPin ∧
  s.dep.startLine = st.depStart ∧ s.pin.startLine = st.pinStart ∧
  s.indStart = st.indOpen ∧ (s.ind.empty = !st.indClosed) ∧
  (∀ j, s.indStart = some j → j < i)

/-- The package name parsed from line `i` of `ls`, if any. -/
def pkgAt (ls : List Str) (i : Nat) : Option Str :=
  (parsePinDependLine (ls.getD i [])).map PinDepend.Package

/-- Whether the non-indirect portion of the pin-depends block holds an entry
for `pkg` (the search of the `SetIndirect` rewrite loop). -/
def mainHasPkg (f : OpamFile) (pkg : Str) : Bool :=
  (rangeList (f.pinDepends.startLine + 1) (f.pinDepends.endLine - 1)).any fun i =>
    if f.indirectPinDepends.Contains i then false
    else
      match parsePinDependLine (f.Lines.getD i []) with
      | some d => d.Package == pkg
      | none => false

/-- A line that matches none of the five scanner patterns; scanning it
never changes the state. -/
def neutralLine (l : Str) : Prop :=
  dependsLine l = false ∧ pinDependsLine l = false ∧ closeBracketLine l = false ∧
  beginIndirectLine l = false ∧ endIndirectLine l = false

/-- All indices stored in a scanner state are below `m` (start lines and
marker positions strictly, end lines weakly). -/
def BoundedSt (s : ScanState) (m : Nat) : Prop :=
  s.dep.startLine < m ∧ s.dep.endLine ≤ m ∧ s.pin.startLine < m ∧ s.pin.endLine ≤ m ∧
  s.ind.startLine < m ∧ s.ind.endLine ≤ m ∧ (∀ j, s.indStart = some j → j < m)

/-- Shift a recorded start-line or marker index across an insertion at
position `c`. -/
def shiftN (c v : Nat) : Nat := if c ≤ v then v + 1 else v

/-- Shift a recorded (exclusive) end-line across an insertion at `c`. -/
def shiftE (c e : Nat) : Nat := if c < e then e + 1 else e

def shiftRegion (c : Nat) (r : Region) : Region :=
  ⟨shiftN c r.startLine, shiftE c r.endLine⟩

def shiftState (c : Nat) (s : ScanState) : ScanState :=
  ⟨shiftRegion c s.dep, shiftRegion c s.pin, shiftRegion c s.ind,
    s.inDep, s.inPin, s.indStart.map (shiftN c)⟩

def shiftErr (c : Nat) : RegionError → RegionError
  | .unclosedIndirect j => .unclosedIndirect (shiftN c j)
  | .nestedBegin j i => .nestedBegin (shiftN c j) (shiftN c i)
  | .endWithoutBegin i => .endWithoutBegin (shiftN c i)
  | .unclosedDepends j => .unclosedDepends (shiftN c j)
  | .unclosedPinDepends j => .unclosedPinDepends (shiftN c j)

/-! ### The dependency graph (claim C9) -/

/-- One dependency-rule pair: `Target` depends on `Source`. -/
structure Dep where
  Target : Str
  Source : Str
deriving DecidableEq

/-- Modelled from the spec (§3/§4.4): the depgraph `Graph` implementation is
not under src/ (only its tests and callers are). A graph is its list of
edges; the dependencies of a node are the sources of its edges, in edge
order. -/
def depsFrom (g : List Dep) (n : Str) : List Str :=
  (g.filter (fun d => d.Target == n)).map Dep.Source

/-- Modelled from the spec (§4.4): fuel-driven worklist traversal for
`forwardClosure`, with a visited guard so each node is emitted once and
cycles cannot loop forever. -/
def forwardClosureFuel (g : List Dep) : Nat → List Str → List Str → List Str
  | 0, _, acc => acc
  | _ + 1, [], acc => acc
  | fuel + 1, n :: rest, acc =>
    if n ∈ acc then forwardClosureFuel g fuel rest acc
    else forwardClosureFuel g fuel (rest ++ depsFrom g n) (acc ++ [n])

/-- The number of distinct targets of `g` not yet visited. -/
def unvisited (g : List Dep) (acc : List Str) : Nat :=
  ((g.map Dep.Target).dedup.filter (fun n => decide (n ∉ acc))).length

/-- Fuel that always suffices to drain the worklist. -/
def closurePotential (g : List Dep) (queue acc : List Str) : Nat :=
  queue.length + unvisited g acc * (g.length + 1)

/-- Modelled from the spec (§4.4): `forwardClosure(seeds)`, the set of all
transitive dependencies of the seeds in first-discovery order. -/
def forwardClosure (g : List Dep) (seeds : List Str) : List Str :=
  forwardClosureFuel g (closurePotential g seeds []) seeds []

/-! ### Concrete inputs used by counterexamples and witnesses -/

/-- An accepted input with both blocks but no trailing newline. -/
def c1Text : Str := str "depends: [\n]\npin-depends: [\n]"

/-- Lines of a well-formed manifest used for the round-trip witness. -/
def c1WitLines : List Str :=
  [str "opam-version: \"2.0\"", str "depends: [", str "  \"perennial\"", str "]",
   str "pin-depends: [", str "]"]

/-- Root manifest with one direct dependency pinned at a short commit. -/
def c2File : OpamFile := OpamFile.withLines
  [str "pin-depends: [",
   str "  [\"perennial.dev\" \"git+https://example.com/p#abc\"]",
   str "]"]

/-- Oracle whose hash resolution succeeds (extending the hash) but whose
manifest fetch fails. -/
def c2Oracle : GitOracle :=
  ⟨fun _ _ => .ok (str "abcdef1234567890"), fun _ _ _ => .error (str "nope")⟩

/-- Remote manifest text declaring two pin-depends, fetched for `c3File`. -/
def c3Remote : Str := joinLines
  [str "pin-depends: [",
   str "  [\"pkgB.dev\" \"git+https://x/b#bbbbbbbbbbbbbbb\"]",
   str "  [\"pkgC.dev\" \"git+https://x/c#ccccccccccccccc\"]",
   str "]",
   str "depends: [",
   str "]"]

def c3Oracle : GitOracle := ⟨fun _ c => .ok c, fun _ _ _ => .ok c3Remote⟩

/-- Root manifest with one full-hash direct dependency. -/
def c3File : OpamFile := OpamFile.withLines
  [str "depends: [",
   str "]",
   str "pin-depends: [",
   str "  [\"pkgA.dev\" \"git+https://x/a#aaaaaaaaaaaaaaaaaaaaaaaaaaaaaaaaaaaaaaaa\"]",
   str "]"]

/-- The candidates fetched for `c3File` through `c3Oracle`. -/
def c3Cands : List PinDepend :=
  [⟨str "pkgB", str "git+https://x/b", str "bbbbbbbbbb"⟩,
   ⟨str "pkgC", str "git+https://x/c", str "cccccccccc"⟩]

/-- A manifest whose pin-depends block holds an entry for `pkg` in the main
portion (line 1) and another for the same package in the indirect region
(line 3). -/
def c4File : OpamFile := OpamFile.withLines
  [str "pin-depends: [",
   str "  [\"pkg.dev\" \"u1\"]",
   str "  ## begin indirect",
   str "  [\"pkg.dev\" \"u2\"]",
   str "  ## end",
   str "]"]

def c4Dep : PinDepend := ⟨str "pkg", str "u3", []⟩

/-- A manifest with a pin-depends block but no indirect region. -/
def c5File : OpamFile := OpamFile.withLines
  [str "pin-depends: [",
   str "  [\"perennial.dev\" \"git+https://example.com/p#abc\"]",
   str "]"]

/-- A manifest with an existing indirect region, for the SetIndirect witness. -/
def c5WitFile : OpamFile := OpamFile.withLines
  [str "pin-depends: [",
   str "  [\"perennial.dev\" \"git+https://example.com/p#abc\"]",
   str "",
   str "  ## begin indirect",
   str "  [\"old.dev\" \"u\"]",
   str "  ## end",
   str "]"]

def c5WitDeps : List PinDepend :=
  [⟨str "pkg1", str "u1", str "c1"⟩, ⟨str "perennial", str "u9", str "c9"⟩]

/-- Input whose pin-depends block closes while an indirect region is open. -/
def c6Lines : List Str :=
  [str "pin-depends: [",
   str "  ## begin indirect",
   str "  [\"pkg.dev\" \"git+https://example.com\"]",
   str "]"]

/-- A dependency whose rendered line cannot be parsed back (empty URL). -/
def c7Dep : PinDepend := ⟨str "pkg", [], []⟩

def c7File : OpamFile := OpamFile.withLines [str "pin-depends: [", str "]"]

/-- A dependency whose rendered line parses back, for the upsert witnesses. -/
def c7WitDep : PinDepend := ⟨str "extra", str "git+https://x/e", str "ee"⟩

/-- The diamond graph `A←B, A←C, B←D, C←D` of the RocqDeps test. -/
def c9Graph : List Dep :=
  [⟨str "A", str "B"⟩, ⟨str "A", str "C"⟩, ⟨str "B", str "D"⟩, ⟨str "C", str "D"⟩]

/-- A pin-depends line with an over-long commit hash. -/
def c8Line : Str := str "  [\"pkg.dev\" \"u#0123456789012345\"]"

/-- An accepted input lacking both blocks. -/
def c10Text : Str := str "opam-version: \"2.0\"\nversion: \"dev\"\n"

/-- The file Parse produces for `c10Text` (both blocks synthesised). -/
def c10WitFile : OpamFile :=
  ⟨[str "depends: [", str "]", str "opam-version: \"2.0\"", str "version: \"dev\"",
    str "pin-depends: [", str "]"],
   ⟨0, 2⟩, ⟨4, 6⟩, ⟨0, 0⟩⟩

/-! ## Basic lemmas -/

theorem withLines_Lines (ls : List Str) : (OpamFile.withLines ls).Lines = ls := by
  unfold OpamFile.withLines
  split <;> rfl

theorem abbreviateHash_length (c : Str) :
    (AbbreviateHash c).length ≤ HASH_ABBREV_LENGTH := by
  unfold AbbreviateHash
  split
  · simp [List.length_take]
  · omega

theorem abbreviateHash_idem (c : Str) :
    AbbreviateHash (AbbreviateHash c) = AbbreviateHash c := by
  have h := abbreviateHash_length c
  have hn : ¬ (AbbreviateHash c).length > HASH_ABBREV_LENGTH := by omega
  conv_lhs => rw [AbbreviateHash]
  rw [if_neg hn]

theorem abbreviateHash_isEmpty (c : Str) :
    (AbbreviateHash c).isEmpty = c.isEmpty := by
  unfold AbbreviateHash
  split
  · rename_i h
    cases c with
    | nil => simp at h
    | cons a c' => simp [HASH_ABBREV_LENGTH]
  · rfl

theorem parsePinDependLine_commit {l : Str} {d : PinDepend}
    (h : parsePinDependLine l = some d) :
    d.Commit.length ≤ HASH_ABBREV_LENGTH := by
  unfold parsePinDependLine at h
  repeat' split at h
  all_goals first
    | exact Option.noConfusion h
    | (cases h; exact abbreviateHash_length _)

/-- Claim C8: a commit hash is normalized to the fixed abbreviation length
(10 characters when longer) on every read (parsing a pin-depends line goes
through `Normalize`) and on every write (rendering abbreviates the stored
commit, so the line is the same as for the abbreviated commit). -/
theorem c8_commit_normalized :
    (∀ l d, parsePinDependLine l = some d → d.Commit.length ≤ HASH_ABBREV_LENGTH) ∧
    (∀ dep : PinDepend,
      dep.toLine = PinDepend.toLine ⟨dep.Package, dep.URL, AbbreviateHash dep.Commit⟩ ∧
      (AbbreviateHash dep.Commit).length ≤ HASH_ABBREV_LENGTH) := by
  refine ⟨fun l d h => parsePinDependLine_commit h,
    fun dep => ⟨?_, abbreviateHash_length _⟩⟩
  unfold PinDepend.toLine
  simp [abbreviateHash_idem, abbreviateHash_isEmpty]

/-- Witness for C8 at a concrete line with a 16-character hash. -/
theorem c8_commit_normalized_witness :
    (PinDepend.mk (str "pkg") (str "u") (str "0123456789")).Commit.length
      ≤ HASH_ABBREV_LENGTH :=
  c8_commit_normalized.1 c8Line ⟨str "pkg", str "u", str "0123456789"⟩ (by decide)

/-- Claim C2 (amended): when `UpdateIndirectDependencies` returns an error,
the file is exactly the state left by the hash-extension phase: the fetch
loop and `SetIndirect` write nothing on a failure path. -/
theorem c2_abort_amended (o : GitOracle) (f : OpamFile) (e : Str)
    (h : (UpdateIndirectDependencies o f).1 = .error e) :
    (UpdateIndirectDependencies o f).2 = (extendLoop o f.GetPinDepends f false).2.1 := by
  unfold UpdateIndirectDependencies at h ⊢
  rcases hex : extendLoop o f.GetPinDepends f false with ⟨exc, f1, c⟩
  cases exc with
  | error e' => rfl
  | ok u =>
    cases u
    rw [hex] at h
    dsimp only at h ⊢
    rcases hfl : fetchLoop o f1.GetPinDepends [] [] with e' | inds
    · rfl
    · rw [hfl] at h
      simp at h

/-- Witness for C2 (amended) at the concrete failing oracle. -/
theorem c2_abort_amended_witness :
    (UpdateIndirectDependencies c2Oracle c2File).2
      = (extendLoop c2Oracle c2File.GetPinDepends c2File false).2.1 :=
  c2_abort_amended c2Oracle c2File (str "failed to fetch opam file: nope") (by rfl)

/-- Counterexample for C2 as stated: the hash of the single direct
dependency is extended (rewriting its line) before the manifest fetch
fails, so the error is returned with the root manifest's lines changed. -/
theorem c2_counterexample :
    (UpdateIndirectDependencies c2Oracle c2File).1
        = .error (str "failed to fetch opam file: nope")
      ∧ (UpdateIndirectDependencies c2Oracle c2File).2.Lines ≠ c2File.Lines := by
  exact ⟨by rfl, by decide⟩

/-- Counterexample for C4 as stated: `c4File` holds an entry for `pkg` both
in the main portion (line 1) and in the indirect region (line 3); the code
replaces the first match (line 1) in place, not the claimed
delete-from-indirect-and-insert-after-the-open-line. -/
theorem c4_counterexample :
    (c4File.AddPinDepend c4Dep).Lines = c4File.Lines.set 1 c4Dep.toLine ∧
    (c4File.AddPinDepend c4Dep).Lines
      ≠ insertAt (c4File.pinDepends.startLine + 1) [c4Dep.toLine]
          (c4File.Lines.eraseIdx 3) := by
  exact ⟨by rfl, by decide⟩

/-- Counterexample for C5 as stated: on a file without an indirect region,
`SetIndirect` does not replace the (empty) indirect sub-range with the
rendered block; it inserts a blank line plus the block before the closing
bracket. -/
theorem c5_counterexample :
    (c5File.SetIndirect []).Lines
      = [str "pin-depends: [",
         str "  [\"perennial.dev\" \"git+https://example.com/p#abc\"]",
         [],
         str "  ## begin indirect",
         str "  ## end",
         str "]"] ∧
    (c5File.SetIndirect []).Lines
      ≠ c5File.Lines.take c5File.indirectPinDepends.startLine
          ++ (str "  ## begin indirect" :: ([] : List PinDepend).map PinDepend.toLine
              ++ [str "  ## end"])
          ++ c5File.Lines.drop c5File.indirectPinDepends.endLine := by
  exact ⟨by rfl, by decide⟩

/-- Counterexample for C6 as stated: a pin-depends block that closes while
an indirect region is still open makes `findRegions` fail with the fourth
error kind, `unclosed indirect region`, which the claim's list omits. -/
theorem c6_counterexample :
    findRegions c6Lines = .error (RegionError.unclosedIndirect 1) ∧
    specClassify c6Lines = some (SpecFail.unclosedIndirect 1) := by
  exact ⟨by rfl, by rfl⟩

/-- Counterexample for C7 as stated: a dependency with an empty URL renders
to a line the entry parser rejects, so a second `AddPinDepend` inserts a
second copy instead of being a no-op. -/
theorem c7_counterexample :
    ((c7File.AddPinDepend c7Dep).AddPinDepend c7Dep).Lines
      ≠ (c7File.AddPinDepend c7Dep).Lines := by decide

/-- Counterexample for C1 as stated: an accepted input without a trailing
newline is re-serialized with one appended, so the round trip is not
byte-exact. -/
theorem c1_counterexample :
    (Parse c1Text).isOk = true ∧
    (Parse c1Text).map OpamFile.toText ≠ .ok c1Text := by
  exact ⟨by rfl, by decide⟩

/-! ## The dependency-graph closure (claim C9) -/

theorem depsFrom_sub {g : List Dep} {t s : Str} (h : Dep.mk t s ∈ g) :
    s ∈ depsFrom g t := by
  unfold depsFrom
  exact List.mem_map_of_mem Dep.Source (List.mem_filter.mpr ⟨h, by simp⟩)

theorem depsFrom_length_le (g : List Dep) (n : Str) :
    (depsFrom g n).length ≤ g.length := by
  unfold depsFrom
  rw [List.length_map]
  exact List.length_filter_le _ g

theorem depsFrom_not_target {g : List Dep} {n : Str}
    (h : n ∉ g.map Dep.Target) : depsFrom g n = [] := by
  unfold depsFrom
  have hf : g.filter (fun d => d.Target == n) = [] := by
    apply List.filter_eq_nil_iff.mpr
    intro d hd hbeq
    exact h (by
      have : d.Target = n := by simpa using hbeq
      exact this ▸ List.mem_map_of_mem Dep.Target hd)
  rw [hf]; rfl

theorem count_eq_one_of_nodup {l : List Str} {a : Str} (nd : l.Nodup)
    (h : a ∈ l) : l.count a = 1 := by
  induction l with
  | nil => cases h
  | cons b t ih =>
    rw [List.count_cons]
    rcases List.mem_cons.mp h with rfl | ht
    · have h0 : t.count a = 0 := List.count_eq_zero.mpr (List.nodup_cons.mp nd).1
      simp [h0]
    · have hbn : b ≠ a := by
        intro hcon
        exact (List.nodup_cons.mp nd).1 (hcon ▸ ht)
      have h1 := ih (List.nodup_cons.mp nd).2 ht
      simp [h1, hbn]

theorem unvisited_le (g : List Dep) (acc : List Str) (n : Str) :
    unvisited g (acc ++ [n]) ≤ unvisited g acc := by
  unfold unvisited
  have : ∀ l : List Str,
      (l.filter (fun x => decide (x ∉ acc ++ [n]))).length
        ≤ (l.filter (fun x => decide (x ∉ acc))).length := by
    intro l
    induction l with
    | nil => simp
    | cons b t ih =>
      simp only [List.filter_cons]
      by_cases hb : b ∈ acc
      · rw [if_neg (by simp [hb]), if_neg (by simp [hb])]
        exact ih
      · by_cases hbn : b = n
        · rw [if_neg (by simp [hbn]), if_pos (by simpa using hb)]
          exact le_trans ih (by simp)
        · rw [if_pos (by simp [hb, hbn]), if_pos (by simpa using hb)]
          simpa using ih
  exact this _

theorem unvisited_drop {g : List Dep} {acc : List Str} {n : Str}
    (hmem : n ∈ g.map Dep.Target) (hn : n ∉ acc) :
    unvisited g (acc ++ [n]) + 1 = unvisited g acc := by
  unfold unvisited
  have hd : n ∈ (g.map Dep.Target).dedup := List.mem_dedup.mpr hmem
  have nd : (g.map Dep.Target).dedup.Nodup := List.nodup_dedup _
  revert hd nd
  generalize (g.map Dep.Target).dedup = l
  intro hd nd
  induction l with
  | nil => cases hd
  | cons b t ih =>
    rcases List.mem_cons.mp hd with rfl | ht
    · have hbt : n ∉ t := (List.nodup_cons.mp nd).1
      simp only [List.filter_cons]
      rw [if_neg (by simp), if_pos (by simpa using hn)]
      have hcongr : t.filter (fun x => decide (x ∉ acc ++ [n]))
          = t.filter (fun x => decide (x ∉ acc)) := by
        apply List.filter_congr
        intro x hx
        have hxn : x ≠ n := fun hcon => hbt (hcon ▸ hx)
        simp [List.mem_append, hxn]
      rw [hcongr]
      simp
    · have nd' := (List.nodup_cons.mp nd).2
      have hbn : b ≠ n := fun hcon => (List.nodup_cons.mp nd).1 (hcon ▸ ht)
      simp only [List.filter_cons]
      have hiff : (decide (b ∉ acc ++ [n]) : Bool) = decide (b ∉ acc) := by
        simp [List.mem_append, hbn]
      rw [hiff]
      have ih' := ih ht nd'
      split
      · simpa using ih'
      · exact ih'

theorem unvisited_keep {g : List Dep} {acc : List Str} {n : Str}
    (hmem : n ∉ g.map Dep.Target) :
    unvisited g (acc ++ [n]) = unvisited g acc := by
  unfold unvisited
  apply congrArg List.length
  apply List.filter_congr
  intro x hx
  have hxn : x ≠ n := fun h => hmem (h ▸ List.mem_dedup.mp hx)
  simp [List.mem_append, hxn]

/-- Potential decrease when skipping an already-visited node. -/
theorem pot_skip (g : List Dep) (n : Str) (rest acc : List Str) :
    closurePotential g rest acc + 1 = closurePotential g (n :: rest) acc := by
  simp [closurePotential]
  omega

/-- Potential decrease when visiting a new node. -/
theorem pot_visit (g : List Dep) (n : Str) (rest acc : List Str)
    (hn : n ∉ acc) :
    closurePotential g (rest ++ depsFrom g n) (acc ++ [n]) + 1
      ≤ closurePotential g (n :: rest) acc := by
  unfold closurePotential
  rw [List.length_append, List.length_cons]
  by_cases hmem : n ∈ g.map Dep.Target
  · have hdrop := unvisited_drop hmem hn
    have hdep := depsFrom_length_le g n
    have hmul : unvisited g acc * (g.length + 1)
        = unvisited g (acc ++ [n]) * (g.length + 1) + (g.length + 1) := by
      rw [← hdrop, Nat.succ_mul]
    omega
  · have hkeep : unvisited g (acc ++ [n]) = unvisited g acc := unvisited_keep hmem
    rw [depsFrom_not_target hmem]
    rw [hkeep]
    simp
    omega

/-- The master invariant of the worklist traversal: with enough fuel the
result contains the visited set and the whole queue, has no duplicates, and
is closed under `depsFrom`. -/
theorem closure_master (g : List Dep) :
    ∀ fuel queue acc, closurePotential g queue acc ≤ fuel → acc.Nodup →
    (∀ a ∈ acc, ∀ y ∈ depsFrom g a, y ∈ acc ∨ y ∈ queue) →
    (∀ x ∈ acc, x ∈ forwardClosureFuel g fuel queue acc) ∧
    (∀ x ∈ queue, x ∈ forwardClosureFuel g fuel queue acc) ∧
    (forwardClosureFuel g fuel queue acc).Nodup ∧
    (∀ x ∈ forwardClosureFuel g fuel queue acc, ∀ y ∈ depsFrom g x,
        y ∈ forwardClosureFuel g fuel queue acc) := by
  intro fuel
  induction fuel with
  | zero =>
    intro queue acc hpot nd inv
    have hq : queue = [] := by
      have := hpot
      unfold closurePotential at this
      have hlen : queue.length = 0 := by omega
      exact List.length_eq_zero.mp hlen
    subst hq
    simp only [forwardClosureFuel]
    refine ⟨fun x hx => hx, ?_, nd, ?_⟩
    · intro x hx
      exact absurd hx (List.not_mem_nil x)
    · intro x hx y hy
      rcases inv x hx y hy with h | h
      · exact h
      · exact absurd h (List.not_mem_nil y)
  | succ fuel ih =>
    intro queue acc hpot nd inv
    cases queue with
    | nil =>
      simp only [forwardClosureFuel]
      refine ⟨fun x hx => hx, ?_, nd, ?_⟩
      · intro x hx
        exact absurd hx (List.not_mem_nil x)
      · intro x hx y hy
        rcases inv x hx y hy with h | h
        · exact h
        · exact absurd h (List.not_mem_nil y)
    | cons n rest =>
      simp only [forwardClosureFuel]
      by_cases hn : n ∈ acc
      · rw [if_pos hn]
        have hpot' : closurePotential g rest acc ≤ fuel := by
          have := pot_skip g n rest acc
          omega
        have inv' : ∀ a ∈ acc, ∀ y ∈ depsFrom g a, y ∈ acc ∨ y ∈ rest := by
          intro a ha y hy
          rcases inv a ha y hy with h | h
          · exact Or.inl h
          · rcases List.mem_cons.mp h with rfl | h'
            · exact Or.inl hn
            · exact Or.inr h'
        obtain ⟨A1, A2, And, Acl⟩ := ih rest acc hpot' nd inv'
        exact ⟨A1, fun x hx => by
          rcases List.mem_cons.mp hx with rfl | h'
          · exact A1 x hn
          · exact A2 x h', And, Acl⟩
      · rw [if_neg hn]
        have hpot' : closurePotential g (rest ++ depsFrom g n) (acc ++ [n]) ≤ fuel := by
          have := pot_visit g n rest acc hn
          omega
        have nd' : (acc ++ [n]).Nodup := by
          simp [List.nodup_append, nd, hn]
        have inv' : ∀ a ∈ acc ++ [n], ∀ y ∈ depsFrom g a,
            y ∈ acc ++ [n] ∨ y ∈ rest ++ depsFrom g n := by
          intro a ha y hy
          rcases List.mem_append.mp ha with ha' | ha'
          · rcases inv a ha' y hy with h | h
            · exact Or.inl (List.mem_append_left _ h)
            · rcases List.mem_cons.mp h with rfl | h'
              · exact Or.inl (List.mem_append_right _ (by simp))
              · exact Or.inr (List.mem_append_left _ h')
          · have : a = n := by simpa using ha'
            subst this
            exact Or.inr (List.mem_append_right _ hy)
        obtain ⟨A1, A2, And, Acl⟩ := ih _ _ hpot' nd' inv'
        refine ⟨fun x hx => A1 x (List.mem_append_left _ hx), fun x hx => ?_, And, Acl⟩
        rcases List.mem_cons.mp hx with rfl | h'
        · exact A1 x (List.mem_append_right _ (by simp))
        · exact A2 x (List.mem_append_left _ h')

/-- Any two sufficient fuels give the same traversal result: the worklist
drains; cycles and self-edges cannot make the traversal diverge. -/
theorem closureFuel_stable (g : List Dep) :
    ∀ fuel₁ fuel₂ queue acc, closurePotential g queue acc ≤ fuel₁ →
      closurePotential g queue acc ≤ fuel₂ →
      forwardClosureFuel g fuel₁ queue acc = forwardClosureFuel g fuel₂ queue acc := by
  intro fuel₁
  induction fuel₁ with
  | zero =>
    intro fuel₂ queue acc h1 h2
    cases queue with
    | nil => cases fuel₂ <;> rfl
    | cons n rest =>
      exfalso
      unfold closurePotential at h1
      simp at h1
  | succ fuel ih =>
    intro fuel₂ queue acc h1 h2
    cases queue with
    | nil => cases fuel₂ <;> rfl
    | cons n rest =>
      cases fuel₂ with
      | zero =>
        exfalso
        unfold closurePotential at h2
        simp at h2
      | succ fuel₂' =>
        simp only [forwardClosureFuel]
        by_cases hn : n ∈ acc
        · rw [if_pos hn, if_pos hn]
          have hp := pot_skip g n rest acc
          exact ih fuel₂' rest acc (by omega) (by omega)
        · rw [if_neg hn, if_neg hn]
          have hp := pot_visit g n rest acc hn
          exact ih fuel₂' _ _ (by omega) (by omega)

/-- Claim C9: in every graph containing the diamond edges `A←B, A←C, B←D,
C←D`, the forward closure of `{A}` contains `D` exactly once, and the
traversal is fuel-stable (any fuel beyond the canonical bound gives the
same result, so cycles and self-edges cannot cause divergence). -/
theorem c9_diamond_closure (g : List Dep) (a b c d : Str)
    (hab : Dep.mk a b ∈ g) (hac : Dep.mk a c ∈ g)
    (hbd : Dep.mk b d ∈ g) (hcd : Dep.mk c d ∈ g) :
    (forwardClosure g [a]).count d = 1 ∧
    ∀ k, forwardClosureFuel g (closurePotential g [a] [] + k) [a] []
        = forwardClosure g [a] := by
  obtain ⟨_, hq, hnd, hcl⟩ :=
    closure_master g (closurePotential g [a] []) [a] [] le_rfl List.nodup_nil
      (by intro x hx; cases hx)
  have ha : a ∈ forwardClosure g [a] := hq a (by simp)
  have hb : b ∈ forwardClosure g [a] := hcl a ha b (depsFrom_sub hab)
  have hcmem : c ∈ forwardClosure g [a] := hcl a ha c (depsFrom_sub hac)
  have hd1 : d ∈ forwardClosure g [a] := hcl b hb d (depsFrom_sub hbd)
  have hd2 : d ∈ forwardClosure g [a] := hcl c hcmem d (depsFrom_sub hcd)
  refine ⟨count_eq_one_of_nodup hnd hd1, fun k => ?_⟩
  exact closureFuel_stable g _ _ [a] [] (by omega) le_rfl

/-- Witness for C9 on the concrete diamond graph of the RocqDeps test. -/
theorem c9_diamond_closure_witness :
    (forwardClosure c9Graph [str "A"]).count (str "D") = 1 :=
  (c9_diamond_closure c9Graph (str "A") (str "B") (str "C") (str "D")
    (by decide) (by decide) (by decide) (by decide)).1

/-! ## The resolver pipeline (claim C3) -/

/-- The fetch loop is the spec-side candidate collection followed by the
dedup fold. -/
theorem fetchLoop_eq (o : GitOracle) :
    ∀ dds seen acc, fetchLoop o dds seen acc
      = match collectCandidates o dds with
        | .error e => .error e
        | .ok cs => .ok (cs.foldl dedupStep (seen, acc)).2 := by
  intro dds
  induction dds with
  | nil => intro seen acc; rfl
  | cons d rest ih =>
    intro seen acc
    simp only [fetchLoop, collectCandidates]
    cases FetchDependencies o d with
    | error e => rfl
    | ok cs =>
      dsimp only
      rw [ih]
      cases collectCandidates o rest with
      | error e => rfl
      | ok rs => simp [List.foldl_append]

/-- With the seen-set in sync with the accumulator's packages, the dedup
fold computes the spec-side first-seen deduplication. -/
theorem dedup_invariant :
    ∀ (cs : List PinDepend) (seen : List Str) (acc : List PinDepend),
      (∀ p, p ∈ seen ↔ acc.any (fun a => a.Package == p) = true) →
      (cs.foldl dedupStep (seen, acc)).2
        = cs.foldl (fun acc d =>
            if acc.any (fun a => a.Package == d.Package) then acc else acc ++ [d]) acc := by
  intro cs
  induction cs with
  | nil => intro seen acc _; rfl
  | cons d cs' ih =>
    intro seen acc hinv
    simp only [List.foldl_cons, dedupStep]
    by_cases hm : d.Package ∈ seen
    · rw [if_pos hm, if_pos ((hinv d.Package).mp hm)]
      exact ih seen acc hinv
    · rw [if_neg hm, if_neg (fun hc => hm ((hinv d.Package).mpr hc))]
      apply ih
      intro p
      simp only [List.mem_cons, List.any_append, List.any_cons, List.any_nil,
        Bool.or_false, Bool.or_eq_true]
      constructor
      · intro h
        rcases h with h | h
        · exact Or.inr (by simp [h])
        · exact Or.inl ((hinv p).mp h)
      · intro h
        rcases h with h | h
        · exact Or.inr ((hinv p).mpr h)
        · exact Or.inl (by
            have := eq_of_beq h
            exact this.symm)

/-- Claim C3: when the hash-extension phase succeeds leaving state `f1` and
every remote fetch and parse succeeds with candidate list `cands` (the
one-level union of each non-leaf direct dependency's direct and indirect
entries, in file order), `UpdateIndirectDependencies` hands `SetIndirect`
exactly the first-seen deduplication of `cands` sorted by package name. -/
theorem c3_resolver_pipeline (o : GitOracle) (f f1 : OpamFile) (ch : Bool)
    (cands : List PinDepend)
    (hext : extendLoop o f.GetPinDepends f false = (.ok (), f1, ch))
    (hfetch : collectCandidates o f1.GetPinDepends = .ok cands) :
    (UpdateIndirectDependencies o f).2
        = f1.SetIndirect (sortIndirects (dedupFirstSeen cands))
      ∧ List.Sorted pkgLe (sortIndirects (dedupFirstSeen cands))
      ∧ List.Perm (sortIndirects (dedupFirstSeen cands)) (dedupFirstSeen cands) := by
  have hfl : fetchLoop o f1.GetPinDepends [] []
      = .ok (dedupFirstSeen cands) := by
    rw [fetchLoop_eq, hfetch]
    dsimp only
    have := dedup_invariant cands [] [] (by intro p; simp)
    rw [this]
    rfl
  refine ⟨?_, List.sorted_insertionSort pkgLe _, List.perm_insertionSort pkgLe _⟩
  unfold UpdateIndirectDependencies
  rw [hext]
  dsimp only
  rw [hfl]

/-- Witness for C3 at the concrete one-dependency manifest and oracle. -/
theorem c3_resolver_pipeline_witness :
    (UpdateIndirectDependencies c3Oracle c3File).2
      = c3File.SetIndirect (sortIndirects (dedupFirstSeen c3Cands)) :=
  (c3_resolver_pipeline c3Oracle c3File c3File false c3Cands (by rfl) (by rfl)).1

/-! ## The parse-failure classification (claim C6) -/

theorem scanLine_spec (i : Nat) (line : Str) (s : ScanState) (st : SpecScan)
    (h : scanRel i s st) :
    (∃ s' st', scanLine i line s = .ok s' ∧ specStep i line st = .ok st' ∧
        scanRel (i + 1) s' st')
      ∨ (∃ e e', scanLine i line s = .error e ∧ specStep i line st = .error e' ∧
          errMap e = e') := by
  obtain ⟨h1, h2, h3, h4, h5, h6, h7⟩ := h
  unfold scanLine specStep
  rw [h1, h2, h5]
  by_cases hd : (!st.inDep && dependsLine line) = true
  · rw [if_pos hd, if_pos hd]
    exact Or.inl ⟨_, _, rfl, rfl,
      ⟨rfl, rfl, rfl, h4, rfl, h6, fun j hj => Nat.lt_succ_of_lt (h7 j (h5.trans hj))⟩⟩
  · rw [if_neg hd, if_neg hd]
    by_cases hp : (!st.inPin && pinDependsLine line) = true
    · rw [if_pos hp, if_pos hp]
      exact Or.inl ⟨_, _, rfl, rfl,
        ⟨rfl, rfl, h3, rfl, rfl, h6, fun j hj => Nat.lt_succ_of_lt (h7 j (h5.trans hj))⟩⟩
    · rw [if_neg hp, if_neg hp]
      by_cases hdc : (st.inDep && closeBracketLine line) = true
      · rw [if_pos hdc, if_pos hdc]
        exact Or.inl ⟨_, _, rfl, rfl,
          ⟨rfl, rfl, h3, h4, rfl, h6, fun j hj => Nat.lt_succ_of_lt (h7 j (h5.trans hj))⟩⟩
      · rw [if_neg hdc, if_neg hdc]
        by_cases hpc : (st.inPin && closeBracketLine line) = true
        · rw [if_pos hpc, if_pos hpc]
          cases hio : st.indOpen with
          | none =>
            exact Or.inl ⟨_, _, rfl, rfl,
              ⟨rfl, rfl, h3, h4, rfl, h6, fun j' hj' => Option.noConfusion hj'⟩⟩
          | some j =>
            dsimp only
            rw [h6]
            cases hcl : st.indClosed with
            | false =>
              rw [if_pos (by simp), if_neg (by simp)]
              exact Or.inr ⟨_, _, rfl, rfl, rfl⟩
            | true =>
              rw [if_neg (by simp), if_pos rfl]
              refine Or.inl ⟨_, _, rfl, rfl,
                ⟨rfl, rfl, h3, h4, rfl, h6.trans (by rw [hcl]), ?_⟩⟩
              intro j' hj'
              have hji : j < i := h7 j (h5.trans hio)
              have hjj := Option.some.inj hj'
              omega
        · rw [if_neg hpc, if_neg hpc]
          by_cases hip : st.inPin = true
          · rw [if_pos hip, if_pos hip]
            by_cases hb : beginIndirectLine line = true
            · rw [if_pos hb, if_pos hb]
              cases hio : st.indOpen with
              | some j => exact Or.inr ⟨_, _, rfl, rfl, rfl⟩
              | none =>
                refine Or.inl ⟨_, _, rfl, rfl,
                  ⟨rfl, rfl, h3, h4, rfl, h6, ?_⟩⟩
                intro j' hj'
                have := Option.some.inj hj'
                omega
            · rw [if_neg hb, if_neg hb]
              by_cases he : endIndirectLine line = true
              · rw [if_pos he, if_pos he]
                cases hio : st.indOpen with
                | none => exact Or.inr ⟨_, _, rfl, rfl, rfl⟩
                | some j =>
                  refine Or.inl ⟨_, _, rfl, rfl,
                    ⟨rfl, rfl, h3, h4, rfl, ?_, ?_⟩⟩
                  · have hji : j < i := h7 j (h5.trans hio)
                    simp only [Region.empty]
                    rw [decide_eq_false (by omega)]
                    rfl
                  · intro j' hj'
                    exact Option.noConfusion hj'
              · rw [if_neg he, if_neg he]
                exact Or.inl ⟨_, _, rfl, rfl,
                  ⟨h1, h2, h3, h4, h5, h6,
                    fun j hj => Nat.lt_succ_of_lt (h7 j hj)⟩⟩
          · rw [if_neg hip, if_neg hip]
            exact Or.inl ⟨_, _, rfl, rfl,
              ⟨h1, h2, h3, h4, h5, h6,
                fun j hj => Nat.lt_succ_of_lt (h7 j hj)⟩⟩

theorem scanLines_spec :
    ∀ (ls : List Str) (i : Nat) (s : ScanState) (st : SpecScan),
      scanRel i s st →
      (∃ s' st', scanLines i ls s = .ok s' ∧ specSteps i ls st = .ok st' ∧
          scanRel (i + ls.length) s' st')
        ∨ (∃ e e', scanLines i ls s = .error e ∧ specSteps i ls st = .error e' ∧
            errMap e = e') := by
  intro ls
  induction ls with
  | nil =>
    intro i s st h
    exact Or.inl ⟨s, st, rfl, rfl, by simpa using h⟩
  | cons l ls' ih =>
    intro i s st h
    rcases scanLine_spec i l s st h with ⟨s', st', hs, hst, hrel⟩ | ⟨e, e', hs, hst, he⟩
    · simp only [scanLines, specSteps, hs, hst]
      rcases ih (i + 1) s' st' hrel with ⟨s'', st'', h1, h2, h3⟩ | ⟨e, e', h1, h2, h3⟩
      · refine Or.inl ⟨s'', st'', h1, h2, ?_⟩
        have : i + 1 + ls'.length = i + (ls'.length + 1) := by omega
        rwa [this] at h3
      · exact Or.inr ⟨e, e', h1, h2, h3⟩
    · simp only [scanLines, specSteps, hs, hst]
      exact Or.inr ⟨e, e', rfl, rfl, he⟩

/-- Claim C6 (amended): for every input, region parsing fails exactly when
the classifier reports one of the four failure conditions — a depends or
pin-depends block still open at end of input, an indirect end marker with
no open begin, nested begin markers, or (the case the claim omits) an
indirect region still open when its pin-depends block closes — and the
reported class and line numbers agree. -/
theorem c6_parse_errors_amended :
    ∀ ls : List Str, errClass (findRegions ls) = specClassify ls := by
  intro ls
  have hrel : scanRel 0 initScan specInit := by
    refine ⟨rfl, rfl, rfl, rfl, rfl, rfl, ?_⟩
    intro j hj
    exact Option.noConfusion hj
  unfold findRegions specClassify
  rcases scanLines_spec ls 0 initScan specInit hrel with
    ⟨s', st', hs, hst, hrel'⟩ | ⟨e, e', hs, hst, he⟩
  · rw [hs, hst]
    dsimp only
    obtain ⟨h1, h2, h3, h4, _, _, _⟩ := hrel'
    rw [h1, h2, h3, h4]
    by_cases hd : st'.inDep = true
    · rw [if_pos hd, if_pos hd]; rfl
    · rw [if_neg hd, if_neg hd]
      by_cases hp : st'.inPin = true
      · rw [if_pos hp, if_pos hp]; rfl
      · rw [if_neg hp, if_neg hp]; rfl
  · rw [hs, hst, ← he]
    rfl

/-! ## Scanner case analysis and index bounds -/

/-- Exhaustive description of the successful outcomes of one scanner step,
with the guard facts of each branch. -/
theorem scanLine_ok_cases {i : Nat} {l : Str} {s t : ScanState}
    (h : scanLine i l s = .ok t) :
    (s.inDep = false ∧ dependsLine l = true ∧
      t = { s with dep := { s.dep with startLine := i }, inDep := true }) ∨
    (s.inPin = false ∧ pinDependsLine l = true ∧
      (s.inDep = true ∨ dependsLine l = false) ∧
      t = { s with pin := { s.pin with startLine := i }, inPin := true }) ∨
    (s.inDep = true ∧ closeBracketLine l = true ∧
      t = { s with dep := { s.dep with endLine := i + 1 }, inDep := false }) ∨
    (s.inPin = true ∧ closeBracketLine l = true ∧ s.inDep = false ∧
      dependsLine l = false ∧
      t = { s with pin := { s.pin with endLine := i + 1 }, inPin := false }) ∨
    (s.inPin = true ∧ beginIndirectLine l = true ∧ s.indStart = none ∧
      closeBracketLine l = false ∧ (s.inDep = true ∨ dependsLine l = false) ∧
      t = { s with indStart := some i }) ∨
    (s.inPin = true ∧ endIndirectLine l = true ∧ beginIndirectLine l = false ∧
      closeBracketLine l = false ∧ (s.inDep = true ∨ dependsLine l = false) ∧
      ∃ j, s.indStart = some j ∧
        t = { s with ind := ⟨j, i + 1⟩, indStart := none }) ∨
    (t = s ∧ (s.inDep = true ∨ dependsLine l = false) ∧
      (s.inPin = true ∨ pinDependsLine l = false) ∧
      (s.inDep = false ∨ closeBracketLine l = false) ∧
      (s.inPin = false ∨ closeBracketLine l = false) ∧
      (s.inPin = false ∨ (beginIndirectLine l = false ∧ endIndirectLine l = false))) := by
  unfold scanLine at h
  by_cases g1 : (!s.inDep && dependsLine l) = true
  · rw [if_pos g1] at h
    rcases Bool.and_eq_true_iff.mp g1 with ⟨ga, gb⟩
    exact Or.inl ⟨by simpa using ga, gb, (Except.ok.inj h).symm⟩
  · rw [if_neg g1] at h
    have g1' : s.inDep = true ∨ dependsLine l = false := by
      cases hd : s.inDep with
      | true => exact Or.inl rfl
      | false =>
        cases hl : dependsLine l with
        | false => exact Or.inr rfl
        | true => exact absurd (by rw [hd, hl]; rfl) g1
    by_cases g2 : (!s.inPin && pinDependsLine l) = true
    · rw [if_pos g2] at h
      rcases Bool.and_eq_true_iff.mp g2 with ⟨ga, gb⟩
      exact Or.inr (Or.inl ⟨by simpa using ga, gb, g1', (Except.ok.inj h).symm⟩)
    · rw [if_neg g2] at h
      have g2' : s.inPin = true ∨ pinDependsLine l = false := by
        cases hd : s.inPin with
        | true => exact Or.inl rfl
        | false =>
          cases hl : pinDependsLine l with
          | false => exact Or.inr rfl
          | true => exact absurd (by rw [hd, hl]; rfl) g2
      by_cases g3 : (s.inDep && closeBracketLine l) = true
      · rw [if_pos g3] at h
        rcases Bool.and_eq_true_iff.mp g3 with ⟨ga, gb⟩
        exact Or.inr (Or.inr (Or.inl ⟨ga, gb, (Except.ok.inj h).symm⟩))
      · rw [if_neg g3] at h
        by_cases g4 : (s.inPin && closeBracketLine l) = true
        · rw [if_pos g4] at h
          rcases Bool.and_eq_true_iff.mp g4 with ⟨ga, gb⟩
          have hdep : s.inDep = false := by
            cases hx : s.inDep with
            | true => exact absurd (by rw [hx, gb]; rfl) g3
            | false => rfl
          have hdl : dependsLine l = false := by
            rcases g1' with hx | hx
            · rw [hdep] at hx; exact Bool.noConfusion hx
            · exact hx
          refine Or.inr (Or.inr (Or.inr (Or.inl ⟨ga, gb, hdep, hdl, ?_⟩)))
          cases hio : s.indStart with
          | none => rw [hio] at h; exact (Except.ok.inj h).symm
          | some j =>
            rw [hio] at h
            dsimp only at h
            by_cases hie : s.ind.empty = true
            · rw [if_pos hie] at h; exact Except.noConfusion h
            · rw [if_neg hie] at h; exact (Except.ok.inj h).symm
        · rw [if_neg g4] at h
          by_cases g5 : s.inPin = true
          · rw [if_pos g5] at h
            have hcb : closeBracketLine l = false := by
              cases hy : closeBracketLine l with
              | true => exact absurd (by rw [g5, hy]; rfl) g4
              | false => rfl
            by_cases g6 : beginIndirectLine l = true
            · rw [if_pos g6] at h
              cases hio : s.indStart with
              | some j => rw [hio] at h; exact Except.noConfusion h
              | none =>
                rw [hio] at h
                dsimp only at h
                exact Or.inr (Or.inr (Or.inr (Or.inr (Or.inl
                  ⟨g5, g6, rfl, hcb, g1', (Except.ok.inj h).symm⟩))))
            · rw [if_neg g6] at h
              by_cases g7 : endIndirectLine l = true
              · rw [if_pos g7] at h
                cases hio : s.indStart with
                | none => rw [hio] at h; exact Except.noConfusion h
                | some j =>
                  rw [hio] at h
                  dsimp only at h
                  exact Or.inr (Or.inr (Or.inr (Or.inr (Or.inr (Or.inl
                    ⟨g5, g7, by simpa using g6, hcb, g1', j, rfl,
                      (Except.ok.inj h).symm⟩)))))
              · rw [if_neg g7] at h
                exact Or.inr (Or.inr (Or.inr (Or.inr (Or.inr (Or.inr
                  ⟨(Except.ok.inj h).symm, g1', g2',
                    Or.inr hcb, Or.inr hcb,
                    Or.inr ⟨by simpa using g6, by simpa using g7⟩⟩)))))
          · rw [if_neg g5] at h
            have g5' : s.inPin = false := by simpa using g5
            refine Or.inr (Or.inr (Or.inr (Or.inr (Or.inr (Or.inr
              ⟨(Except.ok.inj h).symm, g1', g2', ?_, Or.inl g5', Or.inl g5'⟩)))))
            cases hx : s.inDep with
            | true =>
              right
              cases hy : closeBracketLine l with
              | true => exact absurd (by rw [hx, hy]; rfl) g3
              | false => rfl
            | false => exact Or.inl rfl

theorem scanLine_bounded {i : Nat} {l : Str} {s t : ScanState}
    (hi : 1 ≤ i) (hb : BoundedSt s i) (h : scanLine i l s = .ok t) :
    BoundedSt t (i + 1) := by
  obtain ⟨b1, b2, b3, b4, b5, b6, b7⟩ := hb
  rcases scanLine_ok_cases h with
    ⟨_, _, rfl⟩ | ⟨_, _, _, rfl⟩ | ⟨_, _, rfl⟩ | ⟨_, _, _, _, rfl⟩ |
    ⟨_, _, _, _, _, rfl⟩ | ⟨_, _, _, _, _, j, hj, rfl⟩ | ⟨rfl, _⟩ <;>
  refine ⟨?_, ?_, ?_, ?_, ?_, ?_, ?_⟩ <;>
  first
    | ((try dsimp only); omega)
    | ((try dsimp only); have hjj := b7 j hj; omega)
    | (intro j' hj'; (try dsimp only at hj');
       first
         | exact Nat.lt_succ_of_lt (b7 j' hj')
         | (have hji := Option.some.inj hj'; omega)
         | exact Option.noConfusion hj')

theorem scanLines_bounded :
    ∀ (xs : List Str) (i : Nat) (s t : ScanState),
      1 ≤ i → BoundedSt s i → scanLines i xs s = .ok t →
      BoundedSt t (i + xs.length) := by
  intro xs
  induction xs with
  | nil =>
    intro i s t hi hb h
    have he := Except.ok.inj h
    subst he
    simpa using hb
  | cons l rest ih =>
    intro i s t hi hb h
    unfold scanLines at h
    cases hsl : scanLine i l s with
    | error e => rw [hsl] at h; exact Except.noConfusion h
    | ok u =>
      rw [hsl] at h
      dsimp only at h
      have hbu := scanLine_bounded hi hb hsl
      have hres := ih (i + 1) u t (by omega) hbu h
      have harith : i + 1 + rest.length = i + (l :: rest).length := by
        simp [List.length_cons]
        omega
      rwa [harith] at hres

theorem initScan_bounded : BoundedSt initScan 1 := by
  refine ⟨by decide, by decide, by decide, by decide, by decide, by decide, ?_⟩
  intro j hj
  exact Option.noConfusion hj

theorem scanLine_zero_bounded {l : Str} {u : ScanState}
    (h : scanLine 0 l initScan = .ok u) : BoundedSt u 1 := by
  rcases scanLine_ok_cases h with
    ⟨_, _, rfl⟩ | ⟨_, _, _, rfl⟩ | ⟨hg, _, _⟩ | ⟨hg, _, _⟩ |
    ⟨hg, _, _⟩ | ⟨hg, _, _⟩ | ⟨rfl, _⟩ <;>
  first
    | exact absurd hg (by decide)
    | (refine ⟨?_, ?_, ?_, ?_, ?_, ?_, ?_⟩ <;>
       first
         | decide
         | (intro j' hj'; exact Option.noConfusion hj'))

theorem scanLines_init_bounded {xs : List Str} {t : ScanState}
    (h : scanLines 0 xs initScan = .ok t) : BoundedSt t (max 1 xs.length) := by
  cases xs with
  | nil =>
    have he := Except.ok.inj h
    subst he
    simpa using initScan_bounded
  | cons l rest =>
    unfold scanLines at h
    cases hsl : scanLine 0 l initScan with
    | error e => rw [hsl] at h; exact Except.noConfusion h
    | ok u =>
      rw [hsl] at h
      dsimp only at h
      have hres := scanLines_bounded rest 1 u t le_rfl (scanLine_zero_bounded hsl) h
      have harith : max 1 (l :: rest).length = 1 + rest.length := by
        simp [List.length_cons]
        omega
      rwa [harith]

/-- Every successful region computation decomposes into a successful scan
whose final flags are clear. -/
theorem findRegions_ok_elim {ls : List Str} {d p ind : Region}
    (h : findRegions ls = .ok (d, p, ind)) :
    ∃ s, scanLines 0 ls initScan = .ok s ∧ s.inDep = false ∧ s.inPin = false ∧
      s.dep = d ∧ s.pin = p ∧ s.ind = ind := by
  unfold findRegions at h
  cases hs : scanLines 0 ls initScan with
  | error e => rw [hs] at h; exact Except.noConfusion h
  | ok s =>
    rw [hs] at h
    dsimp only at h
    by_cases h1 : s.inDep = true
    · rw [if_pos h1] at h; exact Except.noConfusion h
    · rw [if_neg h1] at h
      by_cases h2 : s.inPin = true
      · rw [if_pos h2] at h; exact Except.noConfusion h
      · rw [if_neg h2] at h
        have he := Except.ok.inj h
        have hc : s.dep = d ∧ s.pin = p ∧ s.ind = ind := by
          have h1' := congrArg Prod.fst he
          have h2' := congrArg (fun x => x.2.1) he
          have h3' := congrArg (fun x => x.2.2) he
          exact ⟨h1', h2', h3'⟩
        exact ⟨s, rfl, by simpa using h1, by simpa using h2,
          hc.1, hc.2.1, hc.2.2⟩

/-- The converse direction: a clear-flag scan gives the regions. -/
theorem findRegions_ok_intro {ls : List Str} {s : ScanState}
    (hs : scanLines 0 ls initScan = .ok s) (h1 : s.inDep = false)
    (h2 : s.inPin = false) :
    findRegions ls = .ok (s.dep, s.pin, s.ind) := by
  unfold findRegions
  rw [hs]
  dsimp only
  rw [if_neg (by rw [h1]; exact Bool.false_ne_true), if_neg (by rw [h2]; exact Bool.false_ne_true)]

/-- Region bounds of a well-formed parse. -/
theorem findRegions_bounds {ls : List Str} {d p ind : Region}
    (h : findRegions ls = .ok (d, p, ind)) (hlen : 1 ≤ ls.length) :
    d.startLine < ls.length ∧ d.endLine ≤ ls.length ∧
    p.startLine < ls.length ∧ p.endLine ≤ ls.length ∧
    ind.startLine < ls.length ∧ ind.endLine ≤ ls.length := by
  obtain ⟨s, hs, _, _, hd, hp, hi⟩ := findRegions_ok_elim h
  have hb := scanLines_init_bounded hs
  rw [max_eq_right hlen] at hb
  obtain ⟨b1, b2, b3, b4, b5, b6, _⟩ := hb
  subst hd hp hi
  exact ⟨b1, b2, b3, b4, b5, b6⟩

/-! ## SetIndirect (claim C5) -/

theorem mem_rangeList {a b i : Nat} : i ∈ rangeList a b ↔ a ≤ i ∧ i < b := by
  unfold rangeList
  rw [List.mem_range'_1]
  omega

theorem getD_set_self {l : List Str} {i : Nat} {v : Str} (h : i < l.length) :
    (l.set i v).getD i [] = v := by
  simp [List.getD, List.getElem?_set_self', h]

theorem getD_set_ne {l : List Str} {i j : Nat} {v : Str} (h : i ≠ j) :
    (l.set i v).getD j [] = l.getD j [] := by
  simp [List.getD, List.getElem?_set_ne h]

theorem setIndirectStep_none (f : OpamFile) (acc : List Str × List PinDepend)
    (ind : PinDepend)
    (h : (rangeList (f.pinDepends.startLine + 1) (f.pinDepends.endLine - 1)).find?
        (fun i =>
          if f.indirectPinDepends.Contains i then false
          else
            match parsePinDependLine (acc.1.getD i []) with
            | some d => d.Package == ind.Package
            | none => false) = none) :
    setIndirectStep f acc ind = (acc.1, acc.2 ++ [ind]) := by
  unfold setIndirectStep
  rw [h]

theorem setIndirectStep_some (f : OpamFile) (acc : List Str × List PinDepend)
    (ind : PinDepend) (i : Nat)
    (h : (rangeList (f.pinDepends.startLine + 1) (f.pinDepends.endLine - 1)).find?
        (fun i =>
          if f.indirectPinDepends.Contains i then false
          else
            match parsePinDependLine (acc.1.getD i []) with
            | some d => d.Package == ind.Package
            | none => false) = some i) :
    setIndirectStep f acc ind = (acc.1.set i ind.toLine, acc.2) := by
  unfold setIndirectStep
  rw [h]

theorem find?_congr {α : Type} {p q : α → Bool} :
    ∀ l : List α, (∀ x ∈ l, p x = q x) → l.find? p = l.find? q := by
  intro l
  induction l with
  | nil => intro _; rfl
  | cons a t ih =>
    intro h
    rw [List.find?_cons, List.find?_cons, h a (by simp)]
    cases q a with
    | true => rfl
    | false => exact ih fun x hx => h x (by simp [hx])

/-- The rewrite-loop predicate depends on a line only through its parsed
package name. -/
theorem setIndPred_eq (f : OpamFile) (pkg : Str) (ls : List Str) (i : Nat) :
    (if f.indirectPinDepends.Contains i then false
     else
       match parsePinDependLine (ls.getD i []) with
       | some d => d.Package == pkg
       | none => false)
      = (!f.indirectPinDepends.Contains i && (pkgAt ls i == some pkg)) := by
  unfold pkgAt
  cases hc : f.indirectPinDepends.Contains i with
  | true => simp
  | false =>
    cases parsePinDependLine (ls.getD i []) with
    | none => simp
    | some d => simp

/-- The fold of `SetIndirect`: keeps exactly the candidates whose package is
absent from the non-indirect portion, rewrites only non-indirect lines
inside the block, preserves length and per-line package names. -/
theorem setIndirect_fold_spec (f : OpamFile) :
    ∀ (deps : List PinDepend) (ls : List Str) (kept : List PinDepend),
      (∀ i, pkgAt ls i = pkgAt f.Lines i) →
      (∀ d ∈ deps, ∃ d', parsePinDependLine d.toLine = some d' ∧ d'.Package = d.Package) →
      f.pinDepends.endLine - 1 ≤ ls.length →
      ((deps.foldl (setIndirectStep f) (ls, kept)).2
          = kept ++ deps.filter (fun d => !mainHasPkg f d.Package))
        ∧ ((deps.foldl (setIndirectStep f) (ls, kept)).1.length = ls.length)
        ∧ (∀ i, pkgAt (deps.foldl (setIndirectStep f) (ls, kept)).1 i = pkgAt f.Lines i)
        ∧ (∀ i, (deps.foldl (setIndirectStep f) (ls, kept)).1.getD i [] ≠ ls.getD i [] →
            (f.pinDepends.startLine + 1 ≤ i ∧ i < f.pinDepends.endLine - 1
              ∧ f.indirectPinDepends.Contains i = false
              ∧ ∃ d ∈ deps,
                  (deps.foldl (setIndirectStep f) (ls, kept)).1.getD i [] = d.toLine)) := by
  intro deps
  induction deps with
  | nil =>
    intro ls kept hinv _ _
    refine ⟨by simp, rfl, hinv, ?_⟩
    intro i hne
    exact absurd rfl hne
  | cons d rest ih =>
    intro ls kept hinv hpb hlen
    have hpbd := hpb d (by simp)
    obtain ⟨d', hparse, hpkg⟩ := hpbd
    have hcongr : ∀ x ∈ rangeList (f.pinDepends.startLine + 1) (f.pinDepends.endLine - 1),
        (fun i => if f.indirectPinDepends.Contains i then false
          else
            match parsePinDependLine (ls.getD i []) with
            | some dd => dd.Package == d.Package
            | none => false) x
        = (fun i => if f.indirectPinDepends.Contains i then false
          else
            match parsePinDependLine (f.Lines.getD i []) with
            | some dd => dd.Package == d.Package
            | none => false) x := by
      intro x _
      dsimp only
      rw [setIndPred_eq, setIndPred_eq, hinv x]
    rw [List.foldl_cons]
    have hfeq : (rangeList (f.pinDepends.startLine + 1) (f.pinDepends.endLine - 1)).find?
        (fun i => if f.indirectPinDepends.Contains i then false
          else
            match parsePinDependLine (ls.getD i []) with
            | some dd => dd.Package == d.Package
            | none => false)
        = (rangeList (f.pinDepends.startLine + 1) (f.pinDepends.endLine - 1)).find?
        (fun i => if f.indirectPinDepends.Contains i then false
          else
            match parsePinDependLine (f.Lines.getD i []) with
            | some dd => dd.Package == d.Package
            | none => false) := find?_congr _ hcongr
    cases hfind : (rangeList (f.pinDepends.startLine + 1) (f.pinDepends.endLine - 1)).find?
        (fun i => if f.indirectPinDepends.Contains i then false
          else
            match parsePinDependLine (f.Lines.getD i []) with
            | some dd => dd.Package == d.Package
            | none => false) with
    | none =>
      rw [setIndirectStep_none f (ls, kept) d (hfeq.trans hfind)]
      have hmain : mainHasPkg f d.Package = false := by
        unfold mainHasPkg
        rw [List.any_eq_false]
        intro x hx
        exact (List.find?_eq_none.mp hfind) x hx
      obtain ⟨i1, i2, i3, i4⟩ := ih ls (kept ++ [d]) hinv
        (fun x hx => hpb x (by simp [hx])) hlen
      refine ⟨?_, i2, i3, ?_⟩
      · rw [i1, List.filter_cons, hmain]
        simp
      · intro i hne
        obtain ⟨j1, j2, j3, dd, hdd, hline⟩ := i4 i hne
        exact ⟨j1, j2, j3, dd, by simp [hdd], hline⟩
    | some i =>
      rw [setIndirectStep_some f (ls, kept) d i (hfeq.trans hfind)]
      have hpred := List.find?_some hfind
      have hmem := List.mem_of_find?_eq_some hfind
      have hrange := mem_rangeList.mp hmem
      have hilen : i < ls.length := by omega
      rw [setIndPred_eq] at hpred
      have hnc : f.indirectPinDepends.Contains i = false := by
        cases hcon : f.indirectPinDepends.Contains i with
        | false => rfl
        | true => rw [hcon] at hpred; exact Bool.noConfusion hpred
      have hpkgeq : pkgAt f.Lines i = some d.Package := by
        rw [hnc] at hpred
        have := Bool.and_eq_true_iff.mp hpred
        exact eq_of_beq this.2
      have hmain : mainHasPkg f d.Package = true := by
        unfold mainHasPkg
        rw [List.any_eq_true]
        refine ⟨i, hmem, ?_⟩
        rw [setIndPred_eq f d.Package f.Lines i, hnc, hpkgeq]
        simp
      have hinv' : ∀ j, pkgAt (ls.set i d.toLine) j = pkgAt f.Lines j := by
        intro j
        by_cases hij : i = j
        · subst hij
          rw [hpkgeq]
          unfold pkgAt
          rw [getD_set_self hilen, hparse]
          simp [hpkg]
        · unfold pkgAt
          rw [getD_set_ne hij]
          exact hinv j
      obtain ⟨i1, i2, i3, i4⟩ := ih (ls.set i d.toLine) kept hinv'
        (fun x hx => hpb x (by simp [hx])) (by rw [List.length_set]; exact hlen)
      refine ⟨?_, by rw [i2, List.length_set], i3, ?_⟩
      · rw [i1, List.filter_cons, hmain]
        simp
      · intro j hne
        by_cases hfin : (rest.foldl (setIndirectStep f) (ls.set i d.toLine, kept)).1.getD j []
            = (ls.set i d.toLine).getD j []
        · have hij : i = j := by
            by_contra hij
            rw [hfin, getD_set_ne hij] at hne
            exact hne rfl
          subst hij
          refine ⟨by omega, by omega, hnc, d, by simp, ?_⟩
          rw [hfin, getD_set_self hilen]
        · obtain ⟨j1, j2, j3, dd, hdd, hline⟩ := i4 j hfin
          exact ⟨j1, j2, j3, dd, by simp [hdd], hline⟩

/-- C5 (corrected, amended): for a well-formed file whose pin-depends and
indirect regions are both non-empty, `SetIndirect deps` replaces exactly the
indirect sub-range with a freshly rendered block — begin marker, one line per
kept entry, end marker — where the kept entries are the members of `deps`
whose package does not appear in the non-indirect portion of pin-depends;
the surrounding lines come from an in-place rewrite that preserves length and
per-line package names and only touches non-indirect lines strictly inside
the pin-depends region, setting them to rendered entries of `deps`. -/
theorem c5_set_indirect_amended (f : OpamFile) (deps : List PinDepend)
    (hWF : f.WF) (hpin : f.pinDepends.empty = false)
    (hind : f.indirectPinDepends.empty = false)
    (hpb : ∀ d ∈ deps, ∃ d', parsePinDependLine d.toLine = some d' ∧ d'.Package = d.Package) :
    ∃ ls' : List Str,
      (f.SetIndirect deps).Lines
        = ls'.take f.indirectPinDepends.startLine
            ++ (str "  ## begin indirect"
                :: (deps.filter (fun d => !mainHasPkg f d.Package)).map PinDepend.toLine
                ++ [str "  ## end"])
            ++ ls'.drop f.indirectPinDepends.endLine
      ∧ ls'.length = f.Lines.length
      ∧ (∀ i, pkgAt ls' i = pkgAt f.Lines i)
      ∧ (∀ i, ls'.getD i [] ≠ f.Lines.getD i [] →
          f.pinDepends.startLine + 1 ≤ i ∧ i < f.pinDepends.endLine - 1
            ∧ f.indirectPinDepends.Contains i = false
            ∧ ∃ d ∈ deps, ls'.getD i [] = d.toLine) := by
  have hlen1 : 1 ≤ f.Lines.length := by
    by_contra hc
    have hnil : f.Lines = [] := by
      cases hls : f.Lines with
      | nil => rfl
      | cons a t => rw [hls] at hc; simp at hc
    have hWF' := hWF
    unfold OpamFile.WF at hWF'
    rw [hnil] at hWF'
    have hempty : findRegions ([] : List Str)
        = .ok (⟨0, 0⟩, ⟨0, 0⟩, ⟨0, 0⟩) := rfl
    rw [hempty] at hWF'
    have hp : f.pinDepends = ⟨0, 0⟩ := by
      injection hWF' with h
      obtain ⟨-, h2⟩ := Prod.mk.injEq _ _ _ _ ▸ h
      obtain ⟨h3, -⟩ := Prod.mk.injEq _ _ _ _ ▸ h2
      exact h3.symm
    rw [hp] at hpin
    exact absurd hpin (by decide)
  have hb := findRegions_bounds hWF hlen1
  have hlen : f.pinDepends.endLine - 1 ≤ f.Lines.length := by omega
  obtain ⟨h1, h2, h3, h4⟩ := setIndirect_fold_spec f deps f.Lines []
    (fun _ => rfl) hpb hlen
  refine ⟨(deps.foldl (setIndirectStep f) (f.Lines, [])).1, ?_, h2, h3, h4⟩
  unfold OpamFile.SetIndirect
  rw [hpin, hind]
  simp only [Bool.false_eq_true, if_false, Bool.not_false, if_true]
  rw [withLines_Lines, h1]
  simp

theorem c5_set_indirect_amended_witness :
    ∃ ls' : List Str,
      (c5WitFile.SetIndirect c5WitDeps).Lines
        = ls'.take c5WitFile.indirectPinDepends.startLine
            ++ (str "  ## begin indirect"
                :: (c5WitDeps.filter
                    (fun d => !mainHasPkg c5WitFile d.Package)).map PinDepend.toLine
                ++ [str "  ## end"])
            ++ ls'.drop c5WitFile.indirectPinDepends.endLine
      ∧ ls'.length = c5WitFile.Lines.length
      ∧ (∀ i, pkgAt ls' i = pkgAt c5WitFile.Lines i)
      ∧ (∀ i, ls'.getD i [] ≠ c5WitFile.Lines.getD i [] →
          c5WitFile.pinDepends.startLine + 1 ≤ i ∧ i < c5WitFile.pinDepends.endLine - 1
            ∧ c5WitFile.indirectPinDepends.Contains i = false
            ∧ ∃ d ∈ c5WitDeps, ls'.getD i [] = d.toLine) :=
  c5_set_indirect_amended c5WitFile c5WitDeps (by decide) (by decide) (by decide)
    (by
      intro d hd
      rcases List.mem_cons.mp hd with rfl | hd
      · exact ⟨⟨str "pkg1", str "u1", str "c1"⟩, rfl, rfl⟩
      rcases List.mem_cons.mp hd with rfl | hd
      · exact ⟨⟨str "perennial", str "u9", str "c9"⟩, rfl, rfl⟩
      · exact absurd hd (List.not_mem_nil d))

/-! ## Round-trip of the line scanner and serializer (claim C1) -/

theorem splitLinesAux_line :
    ∀ (l acc rest : Str), '\n' ∉ l →
      splitLinesAux acc (l ++ '\n' :: rest)
        = dropCR (acc.reverse ++ l) :: splitLinesAux [] rest := by
  intro l
  induction l with
  | nil =>
    intro acc rest _
    simp [splitLinesAux]
  | cons c l ih =>
    intro acc rest h
    have hc : ¬ c = '\n' := fun hcc => h (by rw [hcc]; simp)
    have hl : '\n' ∉ l := fun hm => h (by simp [hm])
    show splitLinesAux acc (c :: (l ++ '\n' :: rest)) = _
    rw [splitLinesAux, if_neg hc, ih (c :: acc) rest hl]
    simp

theorem splitLines_joinLines :
    ∀ ls : List Str, ls ≠ [] →
      (∀ l ∈ ls, '\n' ∉ l ∧ l.getLast? ≠ some '\r') →
      splitLines (joinLines ls) = ls := by
  intro ls
  induction ls with
  | nil => intro h _; exact absurd rfl h
  | cons l t ih =>
    intro _ hcl
    obtain ⟨hnl, hcr⟩ := hcl l (by simp)
    have hdrop : dropCR l = l := by unfold dropCR; rw [if_neg hcr]
    cases t with
    | nil =>
      show splitLines (joinLines [l]) = [l]
      unfold joinLines splitLines
      have : l ++ ['\n'] = l ++ '\n' :: [] := rfl
      rw [this, splitLinesAux_line l [] [] hnl]
      simp [splitLinesAux, hdrop]
    | cons a t' =>
      show splitLines (l ++ '\n' :: joinLines (a :: t')) = l :: a :: t'
      unfold splitLines
      rw [splitLinesAux_line l [] (joinLines (a :: t')) hnl]
      have := ih (by simp) (fun x hx => hcl x (by simp [hx]))
      unfold splitLines at this
      rw [this]
      simp [hdrop]

/-- C1 (corrected, amended): for a non-empty line list with no embedded
newline and no trailing carriage return on any line, whose regions parse
successfully with non-empty depends and pin-depends regions, `Parse` of the
serialized text reproduces the file exactly and serializing again gives
back the same text byte for byte. (Inputs missing a block, or texts whose
last line lacks a trailing newline, are rewritten by `Parse` and do not
round-trip.) -/
theorem c1_roundtrip_amended (ls : List Str) (d p ind : Region)
    (hne : ls ≠ [])
    (hcl : ∀ l ∈ ls, '\n' ∉ l ∧ l.getLast? ≠ some '\r')
    (hfr : findRegions ls = .ok (d, p, ind))
    (hd : d.empty = false) (hp : p.empty = false) :
    Parse (joinLines ls) = .ok ⟨ls, d, p, ind⟩
      ∧ (OpamFile.mk ls d p ind).toText = joinLines ls := by
  constructor
  · unfold Parse
    rw [splitLines_joinLines ls hne hcl]
    unfold parseLines
    rw [hfr]
    dsimp only
    rw [hd]
    simp only [Bool.false_eq_true, if_false]
    rw [hp]
    simp only [Bool.false_eq_true, if_false]
  · rfl

theorem c1_roundtrip_amended_witness :
    Parse (joinLines c1WitLines)
        = .ok ⟨c1WitLines, ⟨1, 4⟩, ⟨4, 6⟩, ⟨0, 0⟩⟩
      ∧ (OpamFile.mk c1WitLines ⟨1, 4⟩ ⟨4, 6⟩ ⟨0, 0⟩).toText = joinLines c1WitLines :=
  c1_roundtrip_amended c1WitLines ⟨1, 4⟩ ⟨4, 6⟩ ⟨0, 0⟩ (by decide) (by decide)
    (by decide) (by decide) (by decide)

/-! ## List splicing helpers -/

theorem set_getD_self {α : Type} :
    ∀ (l : List α) (i : Nat) (v d : α), l.getD i d = v → l.set i v = l := by
  intro l
  induction l with
  | nil => intro i v d _; rfl
  | cons a t ih =>
    intro i v d h
    cases i with
    | zero =>
      simp [List.getD] at h
      rw [List.set_cons_zero, h]
    | succ i =>
      rw [List.set_cons_succ, ih i v d (by simpa [List.getD] using h)]

theorem eraseIdx_insertAt {α : Type} :
    ∀ (l : List α) (q : Nat) (v : α), q ≤ l.length →
      (insertAt q [v] l).eraseIdx q = l := by
  intro l
  induction l with
  | nil =>
    intro q v hq
    have : q = 0 := by simpa using hq
    subst this
    rfl
  | cons a t ih =>
    intro q v hq
    cases q with
    | zero => rfl
    | succ q =>
      have h1 : insertAt (q + 1) [v] (a :: t) = a :: insertAt q [v] t := by
        unfold insertAt
        simp
      rw [h1, List.eraseIdx_cons_succ, ih q v (by simpa using hq)]

theorem getD_insertAt_self {α : Type} :
    ∀ (l : List α) (q : Nat) (v d : α), q ≤ l.length →
      (insertAt q [v] l).getD q d = v := by
  intro l
  induction l with
  | nil =>
    intro q v d hq
    have : q = 0 := by simpa using hq
    subst this
    rfl
  | cons a t ih =>
    intro q v d hq
    cases q with
    | zero => rfl
    | succ q =>
      have h1 : insertAt (q + 1) [v] (a :: t) = a :: insertAt q [v] t := by
        unfold insertAt
        simp
      rw [h1]
      simpa [List.getD] using ih q v d (by simpa using hq)

/-! ## Neutral lines and scanner splicing -/

theorem scanLine_neutral {l : Str} (hv : neutralLine l) (i : Nat) (s : ScanState) :
    scanLine i l s = .ok s := by
  obtain ⟨h1, h2, h3, h4, h5⟩ := hv
  simp [scanLine, h1, h2, h3, h4, h5]

theorem parsePinDependLine_shape {l : Str} {d : PinDepend}
    (h : parsePinDependLine l = some d) :
    ∃ r, l.dropWhile goIsSpace = '[' :: r := by
  unfold parsePinDependLine at h
  split at h
  next r1 heq => exact ⟨r1, heq⟩
  next => exact Option.noConfusion h

theorem parsePinDependLine_neutral {l : Str} {d : PinDepend}
    (h : parsePinDependLine l = some d) : neutralLine l := by
  obtain ⟨r, hr⟩ := parsePinDependLine_shape h
  refine ⟨?_, ?_, ?_, ?_, ?_⟩
  · unfold dependsLine matchKeyBlock
    dsimp only
    rw [hr, show (str "depends:").isPrefixOf ('[' :: r) = false from rfl]
    simp
  · unfold pinDependsLine matchKeyBlock
    dsimp only
    rw [hr, show (str "pin-depends:").isPrefixOf ('[' :: r) = false from rfl]
    simp
  · unfold closeBracketLine
    rw [hr]
    rfl
  · unfold beginIndirectLine matchMarker
    dsimp only
    rw [hr, show (str "##").isPrefixOf ('[' :: r) = false from rfl]
    simp
  · unfold endIndirectLine matchMarker
    dsimp only
    rw [hr, show (str "##").isPrefixOf ('[' :: r) = false from rfl]
    simp

theorem scanLines_set_neutral :
    ∀ (ls : List Str) (k i : Nat) (v : Str) (s : ScanState),
      neutralLine (ls.getD i []) → neutralLine v →
      scanLines k (ls.set i v) s = scanLines k ls s := by
  intro ls
  induction ls with
  | nil => intro k i v s _ _; rfl
  | cons a t ih =>
    intro k i v s ha hv
    cases i with
    | zero =>
      have ha' : neutralLine a := by simpa [List.getD] using ha
      rw [List.set_cons_zero]
      show scanLines k (v :: t) s = scanLines k (a :: t) s
      unfold scanLines
      rw [scanLine_neutral hv, scanLine_neutral ha']
    | succ i =>
      rw [List.set_cons_succ]
      show scanLines k (a :: t.set i v) s = scanLines k (a :: t) s
      unfold scanLines
      cases hsl : scanLine k a s with
      | error e => rfl
      | ok u =>
        dsimp only
        exact ih (k + 1) i v u (by simpa [List.getD] using ha) hv

theorem findRegions_set_neutral {ls : List Str} {i : Nat} {v : Str}
    (ho : neutralLine (ls.getD i [])) (hv : neutralLine v) :
    findRegions (ls.set i v) = findRegions ls := by
  unfold findRegions
  rw [scanLines_set_neutral ls 0 i v initScan ho hv]

theorem scanLines_append :
    ∀ (xs ys : List Str) (i : Nat) (s : ScanState),
      scanLines i (xs ++ ys) s
        = match scanLines i xs s with
          | .ok t => scanLines (i + xs.length) ys t
          | .error e => .error e := by
  intro xs
  induction xs with
  | nil =>
    intro ys i s
    show scanLines i ys s = scanLines (i + 0) ys s
    rw [Nat.add_zero]
  | cons l rest ih =>
    intro ys i s
    have hstep : ∀ (zs : List Str) (w : ScanState), scanLines i (l :: zs) w
        = match scanLine i l w with
          | .error e => .error e
          | .ok u => scanLines (i + 1) zs u := fun zs w => rfl
    rw [List.cons_append, hstep (rest ++ ys) s, hstep rest s]
    cases hsl : scanLine i l s with
    | error e => rfl
    | ok u =>
      dsimp only
      rw [ih ys (i + 1) u]
      have harith : i + 1 + rest.length = i + (l :: rest).length := by
        rw [List.length_cons]
        omega
      rw [harith]

theorem shiftRegion_empty (c : Nat) (r : Region) :
    (shiftRegion c r).empty = r.empty := by
  unfold shiftRegion Region.empty shiftN shiftE
  dsimp only
  split <;> split <;> (rw [decide_eq_decide]; try omega)

theorem scanLine_shift {c i : Nat} (hci : c ≤ i) (l : Str) (s : ScanState) :
    scanLine (i + 1) l (shiftState c s)
      = match scanLine i l s with
        | .ok t => .ok (shiftState c t)
        | .error e => .error (shiftErr c e) := by
  unfold scanLine shiftState
  dsimp only
  by_cases g1 : (!s.inDep && dependsLine l) = true
  · rw [if_pos g1, if_pos g1]
    dsimp only
    unfold shiftRegion shiftN
    dsimp only
    rw [if_pos hci]
  · rw [if_neg g1, if_neg g1]
    by_cases g2 : (!s.inPin && pinDependsLine l) = true
    · rw [if_pos g2, if_pos g2]
      dsimp only
      unfold shiftRegion shiftN
      dsimp only
      rw [if_pos hci]
    · rw [if_neg g2, if_neg g2]
      by_cases g3 : (s.inDep && closeBracketLine l) = true
      · rw [if_pos g3, if_pos g3]
        dsimp only
        unfold shiftRegion shiftE
        dsimp only
        rw [if_pos (by omega : c < i + 1)]
      · rw [if_neg g3, if_neg g3]
        by_cases g4 : (s.inPin && closeBracketLine l) = true
        · rw [if_pos g4, if_pos g4]
          cases hio : s.indStart with
          | none =>
            simp only [Option.map_none']
            (try dsimp only)
            unfold shiftRegion shiftE
            (try dsimp only)
            rw [if_pos (by omega : c < i + 1)]
          | some j =>
            simp only [Option.map_some']
            (try dsimp only)
            rw [shiftRegion_empty]
            by_cases hie : s.ind.empty = true
            · rw [if_pos hie, if_pos hie]
              rfl
            · rw [if_neg hie, if_neg hie]
              dsimp only
              simp only [Option.map_some']
              unfold shiftRegion shiftE
              (try dsimp only)
              rw [if_pos (by omega : c < i + 1)]
        · rw [if_neg g4, if_neg g4]
          by_cases g5 : s.inPin = true
          · rw [if_pos g5, if_pos g5]
            by_cases g6 : beginIndirectLine l = true
            · rw [if_pos g6, if_pos g6]
              cases hio : s.indStart with
              | none =>
                simp only [Option.map_none']
                (try dsimp only)
                (try simp only [Option.map_some'])
                unfold shiftN
                (try dsimp only)
                rw [if_pos hci]
              | some j =>
                simp only [Option.map_some']
                (try dsimp only)
                unfold shiftErr shiftN
                (try dsimp only)
                rw [if_pos hci]
            · rw [if_neg g6, if_neg g6]
              by_cases g7 : endIndirectLine l = true
              · rw [if_pos g7, if_pos g7]
                cases hio : s.indStart with
                | none =>
                  simp only [Option.map_none']
                  (try dsimp only)
                  unfold shiftErr shiftN
                  (try dsimp only)
                  rw [if_pos hci]
                | some j =>
                  simp only [Option.map_some']
                  (try dsimp only)
                  (try simp only [Option.map_none'])
                  unfold shiftRegion shiftN shiftE
                  (try dsimp only)
                  rw [if_pos (by omega : c < i + 1)]
              · rw [if_neg g7, if_neg g7]
          · rw [if_neg g5, if_neg g5]

theorem scanLines_shift {c : Nat} :
    ∀ (xs : List Str) (i : Nat) (s : ScanState), c ≤ i →
      scanLines (i + 1) xs (shiftState c s)
        = match scanLines i xs s with
          | .ok t => .ok (shiftState c t)
          | .error e => .error (shiftErr c e) := by
  intro xs
  induction xs with
  | nil => intro i s _; rfl
  | cons l rest ih =>
    intro i s hci
    show scanLines (i + 1) (l :: rest) (shiftState c s) = _
    unfold scanLines
    rw [scanLine_shift hci]
    cases hsl : scanLine i l s with
    | error e => rfl
    | ok u =>
      dsimp only
      exact ih (i + 1) u (by omega)

theorem shiftN_fix {c v : Nat} (h : v < c) : shiftN c v = v := if_neg (by omega)

theorem shiftE_fix {c e : Nat} (h : e ≤ c) : shiftE c e = e := if_neg (by omega)

theorem shiftRegion_fix {c : Nat} {r : Region}
    (h1 : r.startLine < c) (h2 : r.endLine ≤ c) : shiftRegion c r = r := by
  unfold shiftRegion
  rw [shiftN_fix h1, shiftE_fix h2]

theorem shiftState_fix {c : Nat} {s : ScanState} (hb : BoundedSt s c) :
    shiftState c s = s := by
  obtain ⟨b1, b2, b3, b4, b5, b6, b7⟩ := hb
  unfold shiftState
  rw [shiftRegion_fix b1 b2, shiftRegion_fix b3 b4, shiftRegion_fix b5 b6]
  have hmap : s.indStart.map (shiftN c) = s.indStart := by
    cases hio : s.indStart with
    | none => rfl
    | some j =>
      show some (shiftN c j) = some j
      rw [shiftN_fix (b7 j hio)]
  rw [hmap]

/-- Inserting a single neutral line at a position `q` (with `1 ≤ q ≤ length`)
shifts every recorded region across the insertion point. -/
theorem findRegions_insert_neutral {ls : List Str} {d p ind : Region} {q : Nat} {v : Str}
    (h : findRegions ls = .ok (d, p, ind)) (hv : neutralLine v)
    (hq1 : 1 ≤ q) (hq2 : q ≤ ls.length) :
    findRegions (insertAt q [v] ls)
      = .ok (shiftRegion q d, shiftRegion q p, shiftRegion q ind) := by
  obtain ⟨s, hs, hf1, hf2, hd, hp, hi⟩ := findRegions_ok_elim h
  have hs2 : scanLines 0 (ls.take q ++ ls.drop q) initScan = .ok s := by
    rw [List.take_append_drop]
    exact hs
  rw [scanLines_append] at hs2
  cases hpre : scanLines 0 (ls.take q) initScan with
  | error e => rw [hpre] at hs2; exact Except.noConfusion hs2
  | ok sq =>
    rw [hpre] at hs2
    dsimp only at hs2
    have hlen : (ls.take q).length = q := by simp [hq2]
    rw [hlen, Nat.zero_add] at hs2
    have hbq : BoundedSt sq q := by
      have hb := scanLines_init_bounded hpre
      rw [hlen, max_eq_right hq1] at hb
      exact hb
    have hnew : scanLines 0 (ls.take q ++ (v :: ls.drop q)) initScan
        = .ok (shiftState q s) := by
      rw [scanLines_append, hpre]
      dsimp only
      rw [hlen, Nat.zero_add]
      have hone : scanLines q (v :: ls.drop q) sq
          = scanLines (q + 1) (ls.drop q) sq := by
        show (match scanLine q v sq with
              | Except.error e => Except.error e
              | Except.ok u => scanLines (q + 1) (ls.drop q) u) = _
        rw [scanLine_neutral hv]
      rw [hone]
      conv_lhs => rw [← shiftState_fix hbq]
      rw [scanLines_shift (ls.drop q) q sq le_rfl, hs2]
    have hins : insertAt q [v] ls = ls.take q ++ (v :: ls.drop q) := by
      unfold insertAt
      simp
    rw [hins]
    unfold findRegions
    rw [hnew]
    dsimp only
    have hfd : (shiftState q s).inDep = false := hf1
    have hfp : (shiftState q s).inPin = false := hf2
    rw [if_neg (by rw [hfd]; exact Bool.false_ne_true),
        if_neg (by rw [hfp]; exact Bool.false_ne_true)]
    subst hd hp hi
    rfl

/-- Deleting a single neutral line at index `i` (with `1 ≤ i < length`)
un-shifts every recorded region across the deletion point. -/
theorem findRegions_erase_neutral {ls : List Str} {i : Nat} {d p ind : Region}
    (h : findRegions ls = .ok (d, p, ind)) (hv : neutralLine (ls.getD i []))
    (hi1 : 1 ≤ i) (hi2 : i < ls.length) :
    ∃ d' p' ind', findRegions (ls.eraseIdx i) = .ok (d', p', ind')
      ∧ d = shiftRegion i d' ∧ p = shiftRegion i p' ∧ ind = shiftRegion i ind' := by
  obtain ⟨s, hs, hf1, hf2, hd, hp, hind⟩ := findRegions_ok_elim h
  have hs2 : scanLines 0 (ls.take i ++ ls.drop i) initScan = .ok s := by
    rw [List.take_append_drop]
    exact hs
  rw [scanLines_append] at hs2
  cases hpre : scanLines 0 (ls.take i) initScan with
  | error e => rw [hpre] at hs2; exact Except.noConfusion hs2
  | ok si =>
    rw [hpre] at hs2
    dsimp only at hs2
    have hlen : (ls.take i).length = i := by simp [Nat.le_of_lt hi2]
    rw [hlen, Nat.zero_add] at hs2
    have hbi : BoundedSt si i := by
      have hb := scanLines_init_bounded hpre
      rw [hlen, max_eq_right hi1] at hb
      exact hb
    have hdropc : ls.drop i = ls[i] :: ls.drop (i + 1) := List.drop_eq_getElem_cons hi2
    rw [hdropc] at hs2
    have hvi : neutralLine (ls[i]) := by
      rwa [List.getD_eq_getElem ls [] hi2] at hv
    have hstep : scanLines i (ls[i] :: ls.drop (i + 1)) si
        = scanLines (i + 1) (ls.drop (i + 1)) si := by
      show (match scanLine i (ls[i]) si with
            | Except.error e => Except.error e
            | Except.ok u => scanLines (i + 1) (ls.drop (i + 1)) u) = _
      rw [scanLine_neutral hvi]
    rw [hstep] at hs2
    rw [← shiftState_fix hbi] at hs2
    rw [scanLines_shift (ls.drop (i + 1)) i si le_rfl] at hs2
    cases hrec : scanLines i (ls.drop (i + 1)) si with
    | error e =>
      rw [hrec] at hs2
      dsimp only at hs2
      exact Except.noConfusion hs2
    | ok t =>
      rw [hrec] at hs2
      dsimp only at hs2
      have hts : shiftState i t = s := Except.ok.inj hs2
      have hscan : scanLines 0 (ls.take i ++ ls.drop (i + 1)) initScan = .ok t := by
        rw [scanLines_append, hpre]
        dsimp only
        rw [hlen, Nat.zero_add]
        exact hrec
      have herase : ls.eraseIdx i = ls.take i ++ ls.drop (i + 1) :=
        List.eraseIdx_eq_take_drop_succ ls i
      have htf1 : t.inDep = false := by
        have hx : (shiftState i t).inDep = t.inDep := rfl
        rw [← hx, hts]
        exact hf1
      have htf2 : t.inPin = false := by
        have hx : (shiftState i t).inPin = t.inPin := rfl
        rw [← hx, hts]
        exact hf2
      refine ⟨t.dep, t.pin, t.ind, ?_, ?_, ?_, ?_⟩
      · rw [herase]
        exact findRegions_ok_intro hscan htf1 htf2
      · rw [← hd, ← hts]
        rfl
      · rw [← hp, ← hts]
        rfl
      · rw [← hind, ← hts]
        rfl

/-! ## Scanner invariants: shape, monotonicity, progress -/

/-- Either the pin region was never closed, or its recorded block spans at
least an open line and a close line. -/
def PinShape (s : ScanState) : Prop :=
  s.pin.endLine ≤ s.pin.startLine ∨ s.pin.startLine + 2 ≤ s.pin.endLine

theorem scanLine_pinShape {i : Nat} {l : Str} {s t : ScanState}
    (hb : BoundedSt s i) (hsh : PinShape s) (h : scanLine i l s = .ok t) :
    PinShape t := by
  obtain ⟨b1, b2, b3, b4, b5, b6, b7⟩ := hb
  unfold PinShape at hsh ⊢
  rcases scanLine_ok_cases h with
    ⟨_, _, rfl⟩ | ⟨_, _, _, rfl⟩ | ⟨_, _, rfl⟩ | ⟨_, _, _, _, rfl⟩ |
    ⟨_, _, _, _, _, rfl⟩ | ⟨_, _, _, _, _, j, hj, rfl⟩ | ⟨rfl, _⟩ <;>
  (try dsimp only) <;> omega

theorem scanLines_pinShape :
    ∀ (xs : List Str) (i : Nat) (s t : ScanState),
      1 ≤ i → BoundedSt s i → PinShape s → scanLines i xs s = .ok t → PinShape t := by
  intro xs
  induction xs with
  | nil =>
    intro i s t _ _ hsh h
    have he := Except.ok.inj h
    subst he
    exact hsh
  | cons l rest ih =>
    intro i s t hi hb hsh h
    unfold scanLines at h
    cases hsl : scanLine i l s with
    | error e => rw [hsl] at h; exact Except.noConfusion h
    | ok u =>
      rw [hsl] at h
      dsimp only at h
      exact ih (i + 1) u t (by omega) (scanLine_bounded hi hb hsl)
        (scanLine_pinShape hb hsh hsl) h

theorem scanLine_zero_pinShape {l : Str} {u : ScanState}
    (h : scanLine 0 l initScan = .ok u) : PinShape u := by
  unfold PinShape
  rcases scanLine_ok_cases h with
    ⟨_, _, rfl⟩ | ⟨_, _, _, rfl⟩ | ⟨hg, _, _⟩ | ⟨hg, _, _⟩ |
    ⟨hg, _, _⟩ | ⟨hg, _, _⟩ | ⟨rfl, _⟩ <;>
  first
    | exact absurd hg (by decide)
    | ((try dsimp only); decide)

theorem findRegions_pinShape {ls : List Str} {d p ind : Region}
    (h : findRegions ls = .ok (d, p, ind)) (hne : p.empty = false) :
    p.startLine + 2 ≤ p.endLine := by
  obtain ⟨s, hs, _, _, _, hp, _⟩ := findRegions_ok_elim h
  have hshape : PinShape s := by
    cases ls with
    | nil =>
      have he := Except.ok.inj hs
      rw [← he]
      exact Or.inl (by decide)
    | cons l rest =>
      unfold scanLines at hs
      cases hsl : scanLine 0 l initScan with
      | error e => rw [hsl] at hs; exact Except.noConfusion hs
      | ok u =>
        rw [hsl] at hs
        dsimp only at hs
        exact scanLines_pinShape rest 1 u s le_rfl (scanLine_zero_bounded hsl)
          (scanLine_zero_pinShape hsl) hs
  subst hp
  have hlt : s.pin.startLine < s.pin.endLine := by
    by_contra hc
    rw [show s.pin.empty = true from decide_eq_true (by omega)] at hne
    exact Bool.noConfusion hne
  unfold PinShape at hshape
  omega

/-- The recorded depends indices never decrease along a scan. -/
theorem scanLine_depMono {i : Nat} {l : Str} {s t : ScanState}
    (hb : BoundedSt s i) (h : scanLine i l s = .ok t) :
    s.dep.startLine ≤ t.dep.startLine ∧ s.dep.endLine ≤ t.dep.endLine := by
  obtain ⟨b1, b2, b3, b4, b5, b6, b7⟩ := hb
  rcases scanLine_ok_cases h with
    ⟨_, _, rfl⟩ | ⟨_, _, _, rfl⟩ | ⟨_, _, rfl⟩ | ⟨_, _, _, _, rfl⟩ |
    ⟨_, _, _, _, _, rfl⟩ | ⟨_, _, _, _, _, j, hj, rfl⟩ | ⟨rfl, _⟩ <;>
  exact ⟨by (try dsimp only); omega, by (try dsimp only); omega⟩

theorem scanLines_depMono :
    ∀ (xs : List Str) (i : Nat) (s t : ScanState),
      1 ≤ i → BoundedSt s i → scanLines i xs s = .ok t →
      s.dep.startLine ≤ t.dep.startLine ∧ s.dep.endLine ≤ t.dep.endLine := by
  intro xs
  induction xs with
  | nil =>
    intro i s t _ _ h
    have he := Except.ok.inj h
    subst he
    exact ⟨le_rfl, le_rfl⟩
  | cons l rest ih =>
    intro i s t hi hb h
    unfold scanLines at h
    cases hsl : scanLine i l s with
    | error e => rw [hsl] at h; exact Except.noConfusion h
    | ok u =>
      rw [hsl] at h
      dsimp only at h
      obtain ⟨m1, m2⟩ := scanLine_depMono hb hsl
      obtain ⟨m3, m4⟩ := ih (i + 1) u t (by omega) (scanLine_bounded hi hb hsl) h
      exact ⟨m1.trans m3, m2.trans m4⟩

/-- If the scan enters a depends block, it either stays open to the end or
the recorded end line moves past the entry point. -/
theorem scanLines_depProgress :
    ∀ (xs : List Str) (i : Nat) (s t : ScanState),
      1 ≤ i → BoundedSt s i → s.inDep = true → scanLines i xs s = .ok t →
      t.inDep = true ∨ i + 1 ≤ t.dep.endLine := by
  intro xs
  induction xs with
  | nil =>
    intro i s t _ _ hd h
    have he := Except.ok.inj h
    subst he
    exact Or.inl hd
  | cons l rest ih =>
    intro i s t hi hb hd h
    unfold scanLines at h
    cases hsl : scanLine i l s with
    | error e => rw [hsl] at h; exact Except.noConfusion h
    | ok u =>
      rw [hsl] at h
      dsimp only at h
      have hbu := scanLine_bounded hi hb hsl
      rcases scanLine_ok_cases hsl with
        ⟨hg, _, rfl⟩ | ⟨_, _, _, rfl⟩ | ⟨_, _, rfl⟩ | ⟨_, _, hg, _, rfl⟩ |
        ⟨_, _, _, _, _, rfl⟩ | ⟨_, _, _, _, _, j, hj, rfl⟩ | ⟨rfl, _⟩
      · rw [hd] at hg; exact Bool.noConfusion hg
      · rcases ih (i + 1) _ t (by omega) hbu hd h with h1 | h1
        · exact Or.inl h1
        · exact Or.inr (by omega)
      · have hm := scanLines_depMono rest (i + 1) _ t (by omega) hbu h
        exact Or.inr (by have := hm.2; (try dsimp only at this); omega)
      · rw [hd] at hg; exact Bool.noConfusion hg
      · rcases ih (i + 1) _ t (by omega) hbu hd h with h1 | h1
        · exact Or.inl h1
        · exact Or.inr (by omega)
      · rcases ih (i + 1) _ t (by omega) hbu hd h with h1 | h1
        · exact Or.inl h1
        · exact Or.inr (by omega)
      · rcases ih (i + 1) _ t (by omega) hbu hd h with h1 | h1
        · exact Or.inl h1
        · exact Or.inr (by omega)

/-- A pin block is either currently open or a complete block was recorded. -/
def PinLive (s : ScanState) : Prop :=
  s.inPin = true ∨ s.pin.startLine + 2 ≤ s.pin.endLine

theorem scanLine_pinLive {i : Nat} {l : Str} {s t : ScanState}
    (hb : BoundedSt s i) (hlv : PinLive s) (h : scanLine i l s = .ok t) :
    PinLive t := by
  obtain ⟨b1, b2, b3, b4, b5, b6, b7⟩ := hb
  unfold PinLive at hlv ⊢
  rcases scanLine_ok_cases h with
    ⟨_, _, rfl⟩ | ⟨_, _, _, rfl⟩ | ⟨_, _, rfl⟩ | ⟨hg, _, _, _, rfl⟩ |
    ⟨_, _, _, _, _, rfl⟩ | ⟨_, _, _, _, _, j, hj, rfl⟩ | ⟨rfl, _⟩ <;>
  (try dsimp only) <;>
  first
    | (exact Or.inl rfl)
    | (exact Or.inr (by omega))
    | (rcases hlv with h1 | h1
       · exact Or.inl h1
       · exact Or.inr h1)

theorem scanLines_pinLive :
    ∀ (xs : List Str) (i : Nat) (s t : ScanState),
      1 ≤ i → BoundedSt s i → PinLive s → scanLines i xs s = .ok t → PinLive t := by
  intro xs
  induction xs with
  | nil =>
    intro i s t _ _ hlv h
    have he := Except.ok.inj h
    subst he
    exact hlv
  | cons l rest ih =>
    intro i s t hi hb hlv h
    unfold scanLines at h
    cases hsl : scanLine i l s with
    | error e => rw [hsl] at h; exact Except.noConfusion h
    | ok u =>
      rw [hsl] at h
      dsimp only at h
      exact ih (i + 1) u t (by omega) (scanLine_bounded hi hb hsl)
        (scanLine_pinLive hb hlv hsl) h

/-- A scan that starts outside a pin block either never engages the pin
machinery (leaving all of its state untouched) or ends pin-live. -/
theorem scanLines_pinQuiet :
    ∀ (xs : List Str) (i : Nat) (s t : ScanState),
      1 ≤ i → BoundedSt s i → s.inPin = false → scanLines i xs s = .ok t →
      (t.inPin = false ∧ t.pin = s.pin ∧ t.ind = s.ind ∧ t.indStart = s.indStart)
        ∨ PinLive t := by
  intro xs
  induction xs with
  | nil =>
    intro i s t _ _ hq h
    have he := Except.ok.inj h
    subst he
    exact Or.inl ⟨hq, rfl, rfl, rfl⟩
  | cons l rest ih =>
    intro i s t hi hb hq h
    unfold scanLines at h
    cases hsl : scanLine i l s with
    | error e => rw [hsl] at h; exact Except.noConfusion h
    | ok u =>
      rw [hsl] at h
      dsimp only at h
      have hbu := scanLine_bounded hi hb hsl
      rcases scanLine_ok_cases hsl with
        ⟨_, _, rfl⟩ | ⟨_, _, _, rfl⟩ | ⟨_, _, rfl⟩ | ⟨hg, _, _, _, rfl⟩ |
        ⟨hg, _, _, _, _, rfl⟩ | ⟨hg, _, _, _, _, j, hj, rfl⟩ | ⟨rfl, _⟩
      · rcases ih (i + 1) _ t (by omega) hbu hq h with ⟨q1, q2, q3, q4⟩ | hlv
        · exact Or.inl ⟨q1, q2, q3, q4⟩
        · exact Or.inr hlv
      · exact Or.inr (scanLines_pinLive rest (i + 1) _ t (by omega) hbu
          (Or.inl rfl) h)
      · rcases ih (i + 1) _ t (by omega) hbu hq h with ⟨q1, q2, q3, q4⟩ | hlv
        · exact Or.inl ⟨q1, q2, q3, q4⟩
        · exact Or.inr hlv
      · rw [hq] at hg; try exact Bool.noConfusion hg
      · rw [hq] at hg; try exact Bool.noConfusion hg
      · rw [hq] at hg; try exact Bool.noConfusion hg
      · rcases ih (i + 1) _ t (by omega) hbu hq h with ⟨q1, q2, q3, q4⟩ | hlv
        · exact Or.inl ⟨q1, q2, q3, q4⟩
        · exact Or.inr hlv

theorem scanLines_init_pinQuiet {xs : List Str} {t : ScanState}
    (h : scanLines 0 xs initScan = .ok t) :
    (t.inPin = false ∧ t.pin = ⟨0, 0⟩ ∧ t.ind = ⟨0, 0⟩ ∧ t.indStart = none)
      ∨ PinLive t := by
  cases xs with
  | nil =>
    have he := Except.ok.inj h
    rw [← he]
    exact Or.inl ⟨rfl, rfl, rfl, rfl⟩
  | cons l rest =>
    unfold scanLines at h
    cases hsl : scanLine 0 l initScan with
    | error e => rw [hsl] at h; exact Except.noConfusion h
    | ok u =>
      rw [hsl] at h
      dsimp only at h
      have hbu := scanLine_zero_bounded hsl
      rcases scanLine_ok_cases hsl with
        ⟨_, _, rfl⟩ | ⟨_, _, _, rfl⟩ | ⟨hg, _, _⟩ | ⟨hg, _, _⟩ |
        ⟨hg, _, _⟩ | ⟨hg, _, _⟩ | ⟨rfl, _⟩
      · rcases scanLines_pinQuiet rest 1 _ t le_rfl hbu rfl h with ⟨q1, q2, q3, q4⟩ | hlv
        · exact Or.inl ⟨q1, q2, q3, q4⟩
        · exact Or.inr hlv
      · exact Or.inr (scanLines_pinLive rest 1 _ t le_rfl hbu (Or.inl rfl) h)
      · exact absurd hg (by decide)
      · exact absurd hg (by decide)
      · exact absurd hg (by decide)
      · exact absurd hg (by decide)
      · rcases scanLines_pinQuiet rest 1 initScan t le_rfl hbu rfl h with
          ⟨q1, q2, q3, q4⟩ | hlv
        · exact Or.inl ⟨q1, q2, q3, q4⟩
        · exact Or.inr hlv

/-- The two key-block matchers are mutually exclusive. -/
theorem pin_depends_exclusive {l : Str} (h : pinDependsLine l = true) :
    dependsLine l = false := by
  unfold pinDependsLine matchKeyBlock at h
  dsimp only at h
  unfold dependsLine matchKeyBlock
  dsimp only
  by_cases hp : (str "pin-depends:").isPrefixOf (l.dropWhile goIsSpace) = true
  · cases hdw : l.dropWhile goIsSpace with
    | nil => rw [hdw] at hp; exact absurd hp (by decide)
    | cons a r =>
      rw [hdw] at hp
      have hc : a = 'p' := by
        rw [show (str "pin-depends:").isPrefixOf (a :: r)
            = (('p' == a) && (str "in-depends:").isPrefixOf r) from rfl] at hp
        rcases Bool.and_eq_true_iff.mp hp with ⟨h1, _⟩
        exact (eq_of_beq h1).symm
      subst hc
      rw [show (str "depends:").isPrefixOf ('p' :: r) = false from rfl]
      simp
  · rw [if_neg hp] at h
    exact Bool.noConfusion h

/-- A pin-depends line seen outside both blocks opens the pin block. -/
theorem scanLine_pin_opens {i : Nat} {l : Str} {s : ScanState}
    (hq : s.inPin = false) (hpl : pinDependsLine l = true) :
    scanLine i l s
      = .ok { s with pin := { s.pin with startLine := i }, inPin := true } := by
  have hdl : dependsLine l = false := pin_depends_exclusive hpl
  unfold scanLine
  rw [hdl, hq, hpl]
  simp

/-- A depends line seen outside a depends block opens it. -/
theorem scanLine_dep_opens {i : Nat} {l : Str} {s : ScanState}
    (hq : s.inDep = false) (hdl : dependsLine l = true) :
    scanLine i l s
      = .ok { s with dep := { s.dep with startLine := i }, inDep := true } := by
  unfold scanLine
  rw [hq, hdl]
  simp

/-- If a scan that starts outside a pin block ends neither inside a pin
block nor with a recorded one, then no scanned line opens a pin block. -/
theorem scanLines_noPinOpen :
    ∀ (xs : List Str) (i : Nat) (s t : ScanState),
      1 ≤ i → BoundedSt s i → s.inPin = false → scanLines i xs s = .ok t →
      PinLive t ∨ (∀ l ∈ xs, pinDependsLine l = false) := by
  intro xs
  induction xs with
  | nil =>
    intro i s t _ _ _ _
    exact Or.inr (by intro l hl; exact absurd hl (List.not_mem_nil l))
  | cons l rest ih =>
    intro i s t hi hb hq h
    unfold scanLines at h
    cases hsl : scanLine i l s with
    | error e => rw [hsl] at h; exact Except.noConfusion h
    | ok u =>
      rw [hsl] at h
      dsimp only at h
      have hbu := scanLine_bounded hi hb hsl
      by_cases hpl : pinDependsLine l = true
      · rw [scanLine_pin_opens hq hpl] at hsl
        have hu := Except.ok.inj hsl
        subst hu
        exact Or.inl (scanLines_pinLive rest (i + 1) _ t (by omega) hbu
          (Or.inl rfl) h)
      · have hpl' : pinDependsLine l = false := by
          cases hx : pinDependsLine l with
          | false => rfl
          | true => exact absurd hx hpl
        have huq : u.inPin = false := by
          rcases scanLine_ok_cases hsl with
            ⟨_, _, rfl⟩ | ⟨_, hg, _, rfl⟩ | ⟨_, _, rfl⟩ | ⟨hg, _, _, _, rfl⟩ |
            ⟨hg, _, _, _, _, rfl⟩ | ⟨hg, _, _, _, _, j, hj, rfl⟩ | ⟨rfl, _⟩
          · exact hq
          · exact absurd (hpl'.symm.trans hg) Bool.false_ne_true
          · exact hq
          · rw [hq] at hg; try exact Bool.noConfusion hg
          · rw [hq] at hg; try exact Bool.noConfusion hg
          · rw [hq] at hg; try exact Bool.noConfusion hg
          · exact hq
        rcases ih (i + 1) u t (by omega) hbu huq h with h1 | h1
        · exact Or.inl h1
        · refine Or.inr ?_
          intro x hx
          rcases List.mem_cons.mp hx with rfl | hx
          · exact hpl'
          · exact h1 x hx

theorem scanLines_init_noPinOpen {xs : List Str} {t : ScanState}
    (h : scanLines 0 xs initScan = .ok t) :
    PinLive t ∨ (∀ l ∈ xs, pinDependsLine l = false) := by
  cases xs with
  | nil =>
    exact Or.inr (by intro l hl; exact absurd hl (List.not_mem_nil l))
  | cons l rest =>
    unfold scanLines at h
    cases hsl : scanLine 0 l initScan with
    | error e => rw [hsl] at h; exact Except.noConfusion h
    | ok u =>
      rw [hsl] at h
      dsimp only at h
      have hbu := scanLine_zero_bounded hsl
      by_cases hpl : pinDependsLine l = true
      · rw [scanLine_pin_opens rfl hpl] at hsl
        have hu := Except.ok.inj hsl
        subst hu
        exact Or.inl (scanLines_pinLive rest 1 _ t le_rfl hbu (Or.inl rfl) h)
      · have hpl' : pinDependsLine l = false := by
          cases hx : pinDependsLine l with
          | false => rfl
          | true => exact absurd hx hpl
        have huq : u.inPin = false := by
          rcases scanLine_ok_cases hsl with
            ⟨_, _, rfl⟩ | ⟨_, hg, _, rfl⟩ | ⟨hg, _, _⟩ | ⟨hg, _, _⟩ |
            ⟨hg, _, _⟩ | ⟨hg, _, _⟩ | ⟨rfl, _⟩
          · rfl
          · exact absurd (hpl'.symm.trans hg) Bool.false_ne_true
          · exact absurd hg (by decide)
          · exact absurd hg (by decide)
          · exact absurd hg (by decide)
          · exact absurd hg (by decide)
          · rfl
        rcases scanLines_noPinOpen rest 1 u t le_rfl hbu huq h with h1 | h1
        · exact Or.inl h1
        · refine Or.inr ?_
          intro x hx
          rcases List.mem_cons.mp hx with rfl | hx
          · exact hpl'
          · exact h1 x hx

/-- If a scan that starts outside a depends block ends with the recorded
depends start before the scan window, no scanned line opens a depends
block. -/
theorem scanLines_noDepOpen :
    ∀ (xs : List Str) (i : Nat) (s t : ScanState),
      1 ≤ i → BoundedSt s i → s.inDep = false → scanLines i xs s = .ok t →
      (t.inDep = true ∨ i ≤ t.dep.startLine) ∨ (∀ l ∈ xs, dependsLine l = false) := by
  intro xs
  induction xs with
  | nil =>
    intro i s t _ _ _ _
    exact Or.inr (by intro l hl; exact absurd hl (List.not_mem_nil l))
  | cons l rest ih =>
    intro i s t hi hb hq h
    unfold scanLines at h
    cases hsl : scanLine i l s with
    | error e => rw [hsl] at h; exact Except.noConfusion h
    | ok u =>
      rw [hsl] at h
      dsimp only at h
      have hbu := scanLine_bounded hi hb hsl
      by_cases hdl : dependsLine l = true
      · rw [scanLine_dep_opens hq hdl] at hsl
        have hu := Except.ok.inj hsl
        subst hu
        have hm := scanLines_depMono rest (i + 1) _ t (by omega) hbu h
        exact Or.inl (Or.inr (le_trans (by exact le_rfl) hm.1))
      · have hdl' : dependsLine l = false := by
          cases hx : dependsLine l with
          | false => rfl
          | true => exact absurd hx hdl
        have huq : u.inDep = false := by
          rcases scanLine_ok_cases hsl with
            ⟨_, hg, rfl⟩ | ⟨_, _, _, rfl⟩ | ⟨hg, _, rfl⟩ | ⟨_, _, hg, _, rfl⟩ |
            ⟨_, _, _, _, _, rfl⟩ | ⟨_, _, _, _, _, j, hj, rfl⟩ | ⟨rfl, _⟩
          · exact absurd (hdl'.symm.trans hg) Bool.false_ne_true
          · exact hq
          · rw [hq] at hg; try exact Bool.noConfusion hg
          · exact hg
          · exact hq
          · exact hq
          · exact hq
        rcases ih (i + 1) u t (by omega) hbu huq h with h1 | h1
        · rcases h1 with h1 | h1
          · exact Or.inl (Or.inl h1)
          · exact Or.inl (Or.inr (by omega))
        · refine Or.inr ?_
          intro x hx
          rcases List.mem_cons.mp hx with rfl | hx
          · exact hdl'
          · exact h1 x hx

/-- Symmetric live invariant for the depends block. -/
def DepLive (s : ScanState) : Prop :=
  s.inDep = true ∨ s.dep.startLine + 2 ≤ s.dep.endLine

theorem scanLine_depLive {i : Nat} {l : Str} {s t : ScanState}
    (hb : BoundedSt s i) (hlv : DepLive s) (h : scanLine i l s = .ok t) :
    DepLive t := by
  obtain ⟨b1, b2, b3, b4, b5, b6, b7⟩ := hb
  unfold DepLive at hlv ⊢
  rcases scanLine_ok_cases h with
    ⟨_, _, rfl⟩ | ⟨_, _, _, rfl⟩ | ⟨_, _, rfl⟩ | ⟨_, _, _, _, rfl⟩ |
    ⟨_, _, _, _, _, rfl⟩ | ⟨_, _, _, _, _, j, hj, rfl⟩ | ⟨rfl, _⟩ <;>
  (try dsimp only) <;>
  first
    | (exact Or.inl rfl)
    | (exact Or.inr (by omega))
    | (rcases hlv with h1 | h1
       · exact Or.inl h1
       · exact Or.inr h1)

theorem scanLines_depLive :
    ∀ (xs : List Str) (i : Nat) (s t : ScanState),
      1 ≤ i → BoundedSt s i → DepLive s → scanLines i xs s = .ok t → DepLive t := by
  intro xs
  induction xs with
  | nil =>
    intro i s t _ _ hlv h
    have he := Except.ok.inj h
    subst he
    exact hlv
  | cons l rest ih =>
    intro i s t hi hb hlv h
    unfold scanLines at h
    cases hsl : scanLine i l s with
    | error e => rw [hsl] at h; exact Except.noConfusion h
    | ok u =>
      rw [hsl] at h
      dsimp only at h
      exact ih (i + 1) u t (by omega) (scanLine_bounded hi hb hsl)
        (scanLine_depLive hb hlv hsl) h

/-- Suffix form of the previous lemma, concluding with the live invariant. -/
theorem scanLines_noDepOpen2 :
    ∀ (xs : List Str) (i : Nat) (s t : ScanState),
      1 ≤ i → BoundedSt s i → s.inDep = false → scanLines i xs s = .ok t →
      DepLive t ∨ (∀ l ∈ xs, dependsLine l = false) := by
  intro xs
  induction xs with
  | nil =>
    intro i s t _ _ _ _
    exact Or.inr (by intro l hl; exact absurd hl (List.not_mem_nil l))
  | cons l rest ih =>
    intro i s t hi hb hq h
    unfold scanLines at h
    cases hsl : scanLine i l s with
    | error e => rw [hsl] at h; exact Except.noConfusion h
    | ok u =>
      rw [hsl] at h
      dsimp only at h
      have hbu := scanLine_bounded hi hb hsl
      by_cases hdl : dependsLine l = true
      · rw [scanLine_dep_opens hq hdl] at hsl
        have hu := Except.ok.inj hsl
        subst hu
        exact Or.inl (scanLines_depLive rest (i + 1) _ t (by omega) hbu
          (Or.inl rfl) h)
      · have hdl' : dependsLine l = false := by
          cases hx : dependsLine l with
          | false => rfl
          | true => exact absurd hx hdl
        have huq : u.inDep = false := by
          rcases scanLine_ok_cases hsl with
            ⟨_, hg, rfl⟩ | ⟨_, _, _, rfl⟩ | ⟨hg, _, rfl⟩ | ⟨_, _, hg, _, rfl⟩ |
            ⟨_, _, _, _, _, rfl⟩ | ⟨_, _, _, _, _, j, hj, rfl⟩ | ⟨rfl, _⟩
          · exact absurd (hdl'.symm.trans hg) Bool.false_ne_true
          · exact hq
          · rw [hq] at hg; try exact Bool.noConfusion hg
          · exact hg
          · exact hq
          · exact hq
          · exact hq
        rcases ih (i + 1) u t (by omega) hbu huq h with h1 | h1
        · exact Or.inl h1
        · refine Or.inr ?_
          intro x hx
          rcases List.mem_cons.mp hx with rfl | hx
          · exact hdl'
          · exact h1 x hx

theorem scanLines_init_noDepOpen {xs : List Str} {t : ScanState}
    (h : scanLines 0 xs initScan = .ok t) :
    DepLive t ∨ (∀ l ∈ xs, dependsLine l = false) := by
  cases xs with
  | nil =>
    exact Or.inr (by intro l hl; exact absurd hl (List.not_mem_nil l))
  | cons l rest =>
    unfold scanLines at h
    cases hsl : scanLine 0 l initScan with
    | error e => rw [hsl] at h; exact Except.noConfusion h
    | ok u =>
      rw [hsl] at h
      dsimp only at h
      have hbu := scanLine_zero_bounded hsl
      by_cases hdl : dependsLine l = true
      · rw [scanLine_dep_opens rfl hdl] at hsl
        have hu := Except.ok.inj hsl
        subst hu
        exact Or.inl (scanLines_depLive rest 1 _ t le_rfl hbu (Or.inl rfl) h)
      · have hdl' : dependsLine l = false := by
          cases hx : dependsLine l with
          | false => rfl
          | true => exact absurd hx hdl
        have huq : u.inDep = false := by
          rcases scanLine_ok_cases hsl with
            ⟨_, hg, rfl⟩ | ⟨_, _, _, rfl⟩ | ⟨hg, _, _⟩ | ⟨hg, _, _⟩ |
            ⟨hg, _, _⟩ | ⟨hg, _, _⟩ | ⟨rfl, _⟩
          · exact absurd (hdl'.symm.trans hg) Bool.false_ne_true
          · rfl
          · exact absurd hg (by decide)
          · exact absurd hg (by decide)
          · exact absurd hg (by decide)
          · exact absurd hg (by decide)
          · rfl
        rcases scanLines_noDepOpen2 rest 1 u t le_rfl hbu huq h with h1 | h1
        · exact Or.inl h1
        · refine Or.inr ?_
          intro x hx
          rcases List.mem_cons.mp hx with rfl | hx
          · exact hdl'
          · exact h1 x hx

/-- A scan over lines that never open a block, from a state outside both
blocks, leaves the state untouched. -/
theorem scanLine_frozen {i : Nat} {l : Str} {s : ScanState}
    (h1 : s.inDep = false) (h2 : s.inPin = false)
    (h3 : dependsLine l = false) (h4 : pinDependsLine l = false) :
    scanLine i l s = .ok s := by
  unfold scanLine
  rw [h1, h2, h3, h4]
  simp

theorem scanLines_frozen :
    ∀ (xs : List Str) (i : Nat) (s : ScanState),
      s.inDep = false → s.inPin = false →
      (∀ l ∈ xs, dependsLine l = false) → (∀ l ∈ xs, pinDependsLine l = false) →
      scanLines i xs s = .ok s := by
  intro xs
  induction xs with
  | nil => intro i s _ _ _ _; rfl
  | cons l rest ih =>
    intro i s h1 h2 h3 h4
    show scanLines i (l :: rest) s = .ok s
    unfold scanLines
    rw [scanLine_frozen h1 h2 (h3 l (by simp)) (h4 l (by simp))]
    exact ih (i + 1) s h1 h2 (fun x hx => h3 x (by simp [hx]))
      (fun x hx => h4 x (by simp [hx]))

theorem insertAt_length {α : Type} {q : Nat} {l : List α} (vs : List α)
    (hq : q ≤ l.length) : (insertAt q vs l).length = l.length + vs.length := by
  unfold insertAt
  simp
  omega

theorem insertAt_at_end {α : Type} (l vs : List α) :
    insertAt l.length vs l = l ++ vs := by
  unfold insertAt
  simp

/-- A close-bracket line seen inside an open pin block (with no pending
indirect marker) closes it. -/
theorem scanLine_pin_closes {i : Nat} {l : Str} {s : ScanState}
    (h1 : s.inPin = true) (h2 : s.inDep = false) (h3 : s.indStart = none)
    (h4 : closeBracketLine l = true) (h5 : dependsLine l = false)
    (h6 : pinDependsLine l = false) :
    scanLine i l s
      = .ok { s with pin := { s.pin with endLine := i + 1 }, inPin := false } := by
  unfold scanLine
  rw [h1, h2, h3, h4, h5, h6]
  simp

/-- Inserting the synthetic pin-depends block right after a non-empty
depends block of a file with no pin-depends block: the new scan records the
fresh pin region and keeps everything else. -/
theorem findRegions_insert_pin_block {ls : List Str} {d p ind : Region}
    (hfr : findRegions ls = .ok (d, p, ind)) (hd : d.empty = false)
    (hp : p.empty = true) :
    findRegions (insertAt d.endLine [str "pin-depends: [", str "]"] ls)
      = .ok (d, ⟨d.endLine, d.endLine + 2⟩, ind) := by
  have hlen1 : 1 ≤ ls.length := by
    by_contra hc
    have hnil : ls = [] := by
      cases hls : ls with
      | nil => rfl
      | cons a t => rw [hls] at hc; simp at hc
    rw [hnil] at hfr
    have hempty : findRegions ([] : List Str)
        = .ok (⟨0, 0⟩, ⟨0, 0⟩, ⟨0, 0⟩) := rfl
    rw [hempty] at hfr
    have hdz : d = ⟨0, 0⟩ := by
      injection hfr with hfr'
      exact (congrArg Prod.fst hfr').symm
    rw [hdz] at hd
    exact absurd hd (by decide)
  obtain ⟨t, hs, hf1, hf2, hdep, hpin, hind⟩ := findRegions_ok_elim hfr
  have hb := findRegions_bounds hfr hlen1
  have hdne : d.startLine < d.endLine := by
    by_contra hc
    rw [show d.empty = true from decide_eq_true (by omega)] at hd
    exact Bool.noConfusion hd
  have hq1 : 1 ≤ d.endLine := by omega
  have hq2 : d.endLine ≤ ls.length := by omega
  -- split the original scan at q
  have hs2 : scanLines 0 (ls.take d.endLine ++ ls.drop d.endLine) initScan = .ok t := by
    rw [List.take_append_drop]
    exact hs
  rw [scanLines_append] at hs2
  cases hpre : scanLines 0 (ls.take d.endLine) initScan with
  | error e => rw [hpre] at hs2; exact Except.noConfusion hs2
  | ok sq =>
    rw [hpre] at hs2
    dsimp only at hs2
    have hlen : (ls.take d.endLine).length = d.endLine := by simp [hq2]
    rw [hlen, Nat.zero_add] at hs2
    have hbq : BoundedSt sq d.endLine := by
      have hb2 := scanLines_init_bounded hpre
      rw [hlen, max_eq_right hq1] at hb2
      exact hb2
    -- the prefix never engages the pin machinery
    have hquiet : sq.inPin = false ∧ sq.pin = ⟨0, 0⟩ ∧ sq.ind = ⟨0, 0⟩
        ∧ sq.indStart = none := by
      rcases scanLines_init_pinQuiet hpre with hql | hlv
      · exact hql
      · exfalso
        have hlvt := scanLines_pinLive (ls.drop d.endLine) d.endLine sq t hq1 hbq hlv hs2
        rcases hlvt with hx | hx
        · rw [hf2] at hx; exact Bool.noConfusion hx
        · rw [hpin] at hx
          have : p.empty = false := by
            rw [show p.empty = decide (p.endLine ≤ p.startLine) from rfl]
            exact decide_eq_false (by omega)
          rw [this] at hp
          exact Bool.noConfusion hp
    obtain ⟨hq_pin, hq_pinr, hq_indr, hq_io⟩ := hquiet
    -- the prefix leaves the depends block closed
    have hq_dep : sq.inDep = false := by
      cases hx : sq.inDep with
      | false => rfl
      | true =>
        exfalso
        rcases scanLines_depProgress (ls.drop d.endLine) d.endLine sq t hq1 hbq hx hs2 with
          h1 | h1
        · rw [hf1] at h1; exact Bool.noConfusion h1
        · rw [hdep] at h1; omega
    -- no line of the suffix opens a block
    have hnodep : ∀ l ∈ ls.drop d.endLine, dependsLine l = false := by
      rcases scanLines_noDepOpen (ls.drop d.endLine) d.endLine sq t hq1 hbq hq_dep hs2 with
        h1 | h1
      · exfalso
        rcases h1 with h1 | h1
        · rw [hf1] at h1; exact Bool.noConfusion h1
        · rw [hdep] at h1; omega
      · exact h1
    have hnopin : ∀ l ∈ ls.drop d.endLine, pinDependsLine l = false := by
      rcases scanLines_noPinOpen (ls.drop d.endLine) d.endLine sq t hq1 hbq hq_pin hs2 with
        h1 | h1
      · exfalso
        rcases h1 with h1 | h1
        · rw [hf2] at h1; exact Bool.noConfusion h1
        · rw [hpin] at h1
          have : p.empty = false := by
            rw [show p.empty = decide (p.endLine ≤ p.startLine) from rfl]
            exact decide_eq_false (by omega)
          rw [this] at hp
          exact Bool.noConfusion hp
      · exact h1
    -- hence the suffix is frozen: the prefix state is the final state
    have hfrozen := scanLines_frozen (ls.drop d.endLine) d.endLine sq hq_dep hq_pin hnodep hnopin
    have htq : t = sq := by
      rw [hfrozen] at hs2
      exact (Except.ok.inj hs2).symm
    -- scan of the new file
    have hnew : scanLines 0
        (ls.take d.endLine ++ (str "pin-depends: [" :: str "]" :: ls.drop d.endLine))
        initScan
        = .ok { sq with pin := ⟨d.endLine, d.endLine + 2⟩, inPin := false } := by
      rw [scanLines_append, hpre]
      dsimp only
      rw [hlen, Nat.zero_add]
      have hone : scanLine d.endLine (str "pin-depends: [") sq
          = .ok { sq with pin := { sq.pin with startLine := d.endLine }, inPin := true } :=
        scanLine_pin_opens hq_pin (by decide)
      have htwo : scanLine (d.endLine + 1) (str "]")
          { sq with pin := { sq.pin with startLine := d.endLine }, inPin := true }
          = .ok { sq with pin := ⟨d.endLine, d.endLine + 2⟩, inPin := false } :=
        scanLine_pin_closes rfl hq_dep hq_io (by decide) (by decide) (by decide)
      show (match scanLine d.endLine (str "pin-depends: [") sq with
            | Except.error e => Except.error e
            | Except.ok u => scanLines (d.endLine + 1) (str "]" :: ls.drop d.endLine) u) = _
      rw [hone]
      dsimp only
      show (match scanLine (d.endLine + 1) (str "]")
              { sq with pin := { sq.pin with startLine := d.endLine }, inPin := true } with
            | Except.error e => Except.error e
            | Except.ok u => scanLines (d.endLine + 1 + 1) (ls.drop d.endLine) u) = _
      rw [htwo]
      dsimp only
      exact scanLines_frozen (ls.drop d.endLine) (d.endLine + 1 + 1) _ hq_dep rfl
        hnodep hnopin
    have hins : insertAt d.endLine [str "pin-depends: [", str "]"] ls
        = ls.take d.endLine ++ (str "pin-depends: [" :: str "]" :: ls.drop d.endLine) := by
      unfold insertAt
      simp
    rw [hins]
    have hreg := findRegions_ok_intro hnew hq_dep rfl
    rw [hreg]
    have hd1 : sq.dep = d := by rw [← htq]; exact hdep
    have hi1 : sq.ind = ind := by rw [← htq]; exact hind
    rw [show ({ sq with pin := ⟨d.endLine, d.endLine + 2⟩, inPin := false } : ScanState).dep
        = sq.dep from rfl,
      show ({ sq with pin := ⟨d.endLine, d.endLine + 2⟩, inPin := false } : ScanState).ind
        = sq.ind from rfl, hd1, hi1]

/-- A file with neither block: the whole scan is frozen, and the two
synthetic blocks added by Parse are recorded as the only regions. -/
theorem findRegions_double_insert {ls : List Str} {d p ind : Region}
    (hfr : findRegions ls = .ok (d, p, ind)) (hd : d.empty = true)
    (hp : p.empty = true) :
    d = ⟨0, 0⟩ ∧ p = ⟨0, 0⟩ ∧ ind = ⟨0, 0⟩ ∧
    findRegions ((str "depends: [" :: str "]" :: ls) ++ [str "pin-depends: [", str "]"])
      = .ok (⟨0, 2⟩, ⟨ls.length + 2, ls.length + 4⟩, ⟨0, 0⟩) := by
  obtain ⟨t, hs, hf1, hf2, hdep, hpin, hind⟩ := findRegions_ok_elim hfr
  have hnodep : ∀ l ∈ ls, dependsLine l = false := by
    rcases scanLines_init_noDepOpen hs with h1 | h1
    · exfalso
      rcases h1 with h1 | h1
      · rw [hf1] at h1; exact Bool.noConfusion h1
      · rw [hdep] at h1
        rw [show d.empty = decide (d.endLine ≤ d.startLine) from rfl,
          decide_eq_false (by omega : ¬ d.endLine ≤ d.startLine)] at hd
        exact Bool.noConfusion hd
    · exact h1
  have hnopin : ∀ l ∈ ls, pinDependsLine l = false := by
    rcases scanLines_init_noPinOpen hs with h1 | h1
    · exfalso
      rcases h1 with h1 | h1
      · rw [hf2] at h1; exact Bool.noConfusion h1
      · rw [hpin] at h1
        rw [show p.empty = decide (p.endLine ≤ p.startLine) from rfl,
          decide_eq_false (by omega : ¬ p.endLine ≤ p.startLine)] at hp
        exact Bool.noConfusion hp
    · exact h1
  have hfrozen := scanLines_frozen ls 0 initScan rfl rfl hnodep hnopin
  have htinit : t = initScan := by
    rw [hfrozen] at hs
    exact (Except.ok.inj hs).symm
  have hdz : d = ⟨0, 0⟩ := by rw [← hdep, htinit]; rfl
  have hpz : p = ⟨0, 0⟩ := by rw [← hpin, htinit]; rfl
  have hiz : ind = ⟨0, 0⟩ := by rw [← hind, htinit]; rfl
  refine ⟨hdz, hpz, hiz, ?_⟩
  -- scan of the doubly extended file
  have hu2a : scanLine 0 (str "depends: [") initScan
      = .ok { initScan with dep := { initScan.dep with startLine := 0 }, inDep := true } :=
    scanLine_dep_opens rfl (by decide)
  have hu2b : scanLine 1 (str "]")
      { initScan with dep := { initScan.dep with startLine := 0 }, inDep := true }
      = .ok (⟨⟨0, 2⟩, ⟨0, 0⟩, ⟨0, 0⟩, false, false, none⟩ : ScanState) := by decide
  have hmid : scanLines 0 (str "depends: [" :: str "]" :: ls) initScan
      = .ok (⟨⟨0, 2⟩, ⟨0, 0⟩, ⟨0, 0⟩, false, false, none⟩ : ScanState) := by
    show (match scanLine 0 (str "depends: [") initScan with
          | Except.error e => Except.error e
          | Except.ok u => scanLines 1 (str "]" :: ls) u) = _
    rw [hu2a]
    dsimp only
    show (match scanLine 1 (str "]")
            { initScan with dep := { initScan.dep with startLine := 0 }, inDep := true } with
          | Except.error e => Except.error e
          | Except.ok u => scanLines 2 ls u) = _
    rw [hu2b]
    dsimp only
    exact scanLines_frozen ls 2 _ rfl rfl hnodep hnopin
  have hfull : scanLines 0
      ((str "depends: [" :: str "]" :: ls) ++ [str "pin-depends: [", str "]"]) initScan
      = .ok (⟨⟨0, 2⟩, ⟨ls.length + 2, ls.length + 4⟩, ⟨0, 0⟩, false, false, none⟩ : ScanState) := by
    rw [scanLines_append, hmid]
    dsimp only
    have hlen2 : (str "depends: [" :: str "]" :: ls).length = ls.length + 2 := by
      simp
    rw [hlen2, Nat.zero_add]
    have hthree : scanLine (ls.length + 2) (str "pin-depends: [")
        (⟨⟨0, 2⟩, ⟨0, 0⟩, ⟨0, 0⟩, false, false, none⟩ : ScanState)
        = .ok (⟨⟨0, 2⟩, ⟨ls.length + 2, 0⟩, ⟨0, 0⟩, false, true, none⟩ : ScanState) :=
      scanLine_pin_opens rfl (by decide)
    have hfour : scanLine (ls.length + 2 + 1) (str "]")
        (⟨⟨0, 2⟩, ⟨ls.length + 2, 0⟩, ⟨0, 0⟩, false, true, none⟩ : ScanState)
        = .ok (⟨⟨0, 2⟩, ⟨ls.length + 2, ls.length + 2 + 1 + 1⟩, ⟨0, 0⟩, false, false, none⟩
            : ScanState) :=
      scanLine_pin_closes rfl rfl rfl (by decide) (by decide) (by decide)
    show (match scanLine (ls.length + 2) (str "pin-depends: [")
            (⟨⟨0, 2⟩, ⟨0, 0⟩, ⟨0, 0⟩, false, false, none⟩ : ScanState) with
          | Except.error e => Except.error e
          | Except.ok u => scanLines (ls.length + 2 + 1) [str "]"] u) = _
    rw [hthree]
    dsimp only
    show (match scanLine (ls.length + 2 + 1) (str "]")
            (⟨⟨0, 2⟩, ⟨ls.length + 2, 0⟩, ⟨0, 0⟩, false, true, none⟩ : ScanState) with
          | Except.error e => Except.error e
          | Except.ok u => scanLines (ls.length + 2 + 1 + 1) [] u) = _
    rw [hfour]
    dsimp only
    show Except.ok _ = _
    have : ls.length + 2 + 1 + 1 = ls.length + 4 := by omega
    rw [this]
  exact findRegions_ok_intro hfull rfl rfl

theorem ok_triple_inj {a b c a' b' c' : Region}
    (h : (Except.ok (a, b, c) : Except RegionError (Region × Region × Region))
        = .ok (a', b', c')) :
    a = a' ∧ b = b' ∧ c = c' := by
  have h2 := Except.ok.inj h
  exact ⟨congrArg Prod.fst h2, congrArg (fun x => x.2.1) h2,
    congrArg (fun x => x.2.2) h2⟩

theorem nonempty_lines_of_region {ls : List Str} {d p ind : Region}
    (hfr : findRegions ls = .ok (d, p, ind))
    (h : d.empty = false ∨ p.empty = false) : 1 ≤ ls.length := by
  by_contra hc
  have hnil : ls = [] := by
    cases hls : ls with
    | nil => rfl
    | cons a t => rw [hls] at hc; simp at hc
  rw [hnil] at hfr
  have hempty : findRegions ([] : List Str)
      = .ok (⟨0, 0⟩, ⟨0, 0⟩, ⟨0, 0⟩) := rfl
  rw [hempty] at hfr
  obtain ⟨h1, h2, _⟩ := ok_triple_inj hfr
  rcases h with hx | hx
  · rw [← h1] at hx; exact absurd hx (by decide)
  · rw [← h2] at hx; exact absurd hx (by decide)

/-- C10: every manifest text accepted by Parse yields a file whose depends
and pin-depends regions are non-empty; each block missing from the input is
materialised by inserting its two synthetic lines, so the stored line count
grows by two per missing block (parsing is not read-only on such inputs). -/
theorem c10_parse_inserts_blocks (text : Str) (f : OpamFile)
    (h : Parse text = .ok f) :
    f.depends.empty = false ∧ f.pinDepends.empty = false ∧
    ∀ d p ind, findRegions (splitLines text) = .ok (d, p, ind) →
      f.Lines.length = (splitLines text).length
        + (if d.empty then 2 else 0) + (if p.empty then 2 else 0) := by
  unfold Parse parseLines at h
  cases hfr : findRegions (splitLines text) with
  | error e => rw [hfr] at h; exact Except.noConfusion h
  | ok trip =>
    obtain ⟨d, p, ind⟩ := trip
    rw [hfr] at h
    dsimp only at h
    split at h
    next hcond2 =>
      -- the depends block is missing
      dsimp only at h
      by_cases hp : p.empty = true
      · -- both blocks missing
        rw [if_pos hp] at h
        obtain ⟨hdz, hpz, hiz, hnewreg⟩ := findRegions_double_insert hfr hcond2 hp
        have hq0 : d.endLine = 0 := by rw [hdz]
        rw [hq0] at h
        have hls2 : insertAt 0 [str "depends: [", str "]"] (splitLines text)
            = str "depends: [" :: str "]" :: splitLines text := by
          unfold insertAt
          simp
        rw [hls2] at h
        have hlen2 : (str "depends: [" :: str "]" :: splitLines text).length
            = (splitLines text).length + 2 := by simp
        rw [hlen2] at h
        have hend : insertAt ((splitLines text).length + 2) [str "pin-depends: [", str "]"]
              (str "depends: [" :: str "]" :: splitLines text)
            = (str "depends: [" :: str "]" :: splitLines text)
              ++ [str "pin-depends: [", str "]"] := by
          have hx := insertAt_at_end (str "depends: [" :: str "]" :: splitLines text)
            [str "pin-depends: [", str "]"]
          rwa [hlen2] at hx
        rw [hend] at h
        have hwl : OpamFile.withLines ((str "depends: [" :: str "]" :: splitLines text)
              ++ [str "pin-depends: [", str "]"])
            = OpamFile.mk ((str "depends: [" :: str "]" :: splitLines text)
              ++ [str "pin-depends: [", str "]"]) ⟨0, 2⟩
              ⟨(splitLines text).length + 2, (splitLines text).length + 4⟩ ⟨0, 0⟩ := by
          unfold OpamFile.withLines
          rw [hnewreg]
        rw [hwl] at h
        obtain rfl := Except.ok.inj h
        refine ⟨?_, ?_, ?_⟩
        · show Region.empty ⟨0, 2⟩ = false
          decide
        · show Region.empty ⟨(splitLines text).length + 2, (splitLines text).length + 4⟩ = false
          rw [show Region.empty ⟨(splitLines text).length + 2, (splitLines text).length + 4⟩
              = decide ((splitLines text).length + 4 ≤ (splitLines text).length + 2) from rfl]
          exact decide_eq_false (by omega)
        · intro d' p' ind' hfr'
          obtain ⟨e1, e2, _⟩ := ok_triple_inj hfr'
          rw [← e1, ← e2, hcond2, hp]
          simp
      · -- only the depends block missing
        rw [if_neg hp] at h
        have hp' : p.empty = false := Bool.eq_false_iff.mpr hp
        obtain rfl := Except.ok.inj h
        have hlen1 : 1 ≤ (splitLines text).length :=
          nonempty_lines_of_region hfr (Or.inr hp')
        have hb := findRegions_bounds hfr hlen1
        have hlen2 : (insertAt d.endLine [str "depends: [", str "]"]
            (splitLines text)).length = (splitLines text).length + 2 := by
          rw [insertAt_length [str "depends: [", str "]"]
            (by omega : d.endLine ≤ (splitLines text).length)]
          rfl
        refine ⟨?_, hp', ?_⟩
        · show Region.empty ⟨(insertAt d.endLine [str "depends: [", str "]"]
              (splitLines text)).length - 2,
              (insertAt d.endLine [str "depends: [", str "]"] (splitLines text)).length⟩
            = false
          rw [show Region.empty ⟨(insertAt d.endLine [str "depends: [", str "]"]
                (splitLines text)).length - 2,
                (insertAt d.endLine [str "depends: [", str "]"] (splitLines text)).length⟩
              = decide ((insertAt d.endLine [str "depends: [", str "]"]
                (splitLines text)).length
                ≤ (insertAt d.endLine [str "depends: [", str "]"]
                  (splitLines text)).length - 2) from rfl]
          rw [hlen2]
          exact decide_eq_false (by omega)
        · intro d' p' ind' hfr'
          obtain ⟨e1, e2, _⟩ := ok_triple_inj hfr'
          rw [← e1, ← e2, hcond2, hp']
          show (insertAt d.endLine [str "depends: [", str "]"]
              (splitLines text)).length = _
          rw [hlen2]
          simp
    next hcond2 =>
      -- the depends block is present
      dsimp only at h
      have hd' : d.empty = false := Bool.eq_false_iff.mpr hcond2
      by_cases hp : p.empty = true
      · -- only the pin-depends block missing
        rw [if_pos hp] at h
        have hreg := findRegions_insert_pin_block hfr hd' hp
        have hwl : OpamFile.withLines
              (insertAt d.endLine [str "pin-depends: [", str "]"] (splitLines text))
            = OpamFile.mk
              (insertAt d.endLine [str "pin-depends: [", str "]"] (splitLines text))
              d ⟨d.endLine, d.endLine + 2⟩ ind := by
          unfold OpamFile.withLines
          rw [hreg]
        rw [hwl] at h
        obtain rfl := Except.ok.inj h
        have hlen1 : 1 ≤ (splitLines text).length :=
          nonempty_lines_of_region hfr (Or.inl hd')
        have hb := findRegions_bounds hfr hlen1
        refine ⟨hd', ?_, ?_⟩
        · show Region.empty ⟨d.endLine, d.endLine + 2⟩ = false
          rw [show Region.empty ⟨d.endLine, d.endLine + 2⟩
              = decide (d.endLine + 2 ≤ d.endLine) from rfl]
          exact decide_eq_false (by omega)
        · intro d' p' ind' hfr'
          obtain ⟨e1, e2, _⟩ := ok_triple_inj hfr'
          rw [← e1, ← e2, hd', hp]
          show (insertAt d.endLine [str "pin-depends: [", str "]"]
              (splitLines text)).length = _
          rw [insertAt_length [str "pin-depends: [", str "]"]
            (by omega : d.endLine ≤ (splitLines text).length)]
          simp
      · -- both blocks present
        rw [if_neg hp] at h
        have hp' : p.empty = false := Bool.eq_false_iff.mpr hp
        obtain rfl := Except.ok.inj h
        refine ⟨hd', hp', ?_⟩
        intro d' p' ind' hfr'
        obtain ⟨e1, e2, _⟩ := ok_triple_inj hfr'
        rw [← e1, ← e2, hd', hp']
        simp

theorem c10_parse_inserts_blocks_witness :
    c10WitFile.depends.empty = false ∧ c10WitFile.pinDepends.empty = false ∧
    ∀ d p ind, findRegions (splitLines c10Text) = .ok (d, p, ind) →
      c10WitFile.Lines.length = (splitLines c10Text).length
        + (if d.empty then 2 else 0) + (if p.empty then 2 else 0) :=
  c10_parse_inserts_blocks c10Text c10WitFile rfl

/-! ## AddPinDepend (claims C4 and C7) -/

theorem findFirstPinEntry_mem {f : OpamFile} {pkg : Str} {i : Nat}
    (h : findFirstPinEntry f pkg = some i) :
    f.pinDepends.startLine + 1 ≤ i ∧ i < f.pinDepends.endLine - 1 ∧
    ∃ dd, parsePinDependLine (f.Lines.getD i []) = some dd ∧ dd.Package = pkg := by
  unfold findFirstPinEntry innerNums at h
  have hmem := List.mem_of_find?_eq_some h
  have hpred := List.find?_some h
  have hrange := mem_rangeList.mp hmem
  refine ⟨hrange.1, hrange.2, ?_⟩
  cases hpl : parsePinDependLine (f.Lines.getD i []) with
  | none => rw [hpl] at hpred; exact Bool.noConfusion hpred
  | some dd =>
    rw [hpl] at hpred
    exact ⟨dd, rfl, eq_of_beq hpred⟩

/-- C4 (corrected, amended): for a well-formed file with a non-empty
pin-depends region, AddPinDepend first looks for the FIRST matching entry in
file order. If that entry lies inside the indirect sub-range, its line is
deleted and the rendered line is inserted right after the pin-depends open
line; if it lies elsewhere inside pin-depends, the line is replaced in
place; if there is no matching entry at all, the rendered line is inserted
right after the pin-depends open line. -/
theorem c4_upsert_amended (f : OpamFile) (dep : PinDepend)
    (hWF : f.WF) (hpin : f.pinDepends.empty = false) :
    (∀ i, findFirstPinEntry f dep.Package = some i →
        f.indirectPinDepends.Contains i = true →
        (f.AddPinDepend dep).Lines
          = insertAt (f.pinDepends.startLine + 1) [dep.toLine] (f.Lines.eraseIdx i))
    ∧ (∀ i, findFirstPinEntry f dep.Package = some i →
        f.indirectPinDepends.Contains i = false →
        (f.AddPinDepend dep).Lines = f.Lines.set i dep.toLine)
    ∧ (findFirstPinEntry f dep.Package = none →
        (f.AddPinDepend dep).Lines
          = insertAt (f.pinDepends.startLine + 1) [dep.toLine] f.Lines) := by
  have hWF' : findRegions f.Lines = .ok (f.depends, f.pinDepends, f.indirectPinDepends) := hWF
  have hlen1 : 1 ≤ f.Lines.length :=
    nonempty_lines_of_region hWF' (Or.inr hpin)
  have hb := findRegions_bounds hWF' hlen1
  refine ⟨?_, ?_, ?_⟩
  · intro i hfind hcon
    unfold OpamFile.AddPinDepend
    rw [hpin]
    simp only [Bool.false_eq_true, if_false]
    rw [hfind]
    dsimp only
    rw [hcon]
    simp only [if_true]
    rw [withLines_Lines, withLines_Lines]
    obtain ⟨hi1, hi2, dd, hdd, _⟩ := findFirstPinEntry_mem hfind
    have hneut : neutralLine (f.Lines.getD i []) := parsePinDependLine_neutral hdd
    have hilen : i < f.Lines.length := by omega
    obtain ⟨d', p', ind', herased, _, hpe, _⟩ :=
      findRegions_erase_neutral hWF' hneut (by omega) hilen
    have hwl : (OpamFile.withLines (f.Lines.eraseIdx i)).pinDepends = p' := by
      unfold OpamFile.withLines
      rw [herased]
    rw [hwl]
    have hstart : p'.startLine = f.pinDepends.startLine := by
      have hsh : f.pinDepends.startLine = shiftN i p'.startLine :=
        congrArg Region.startLine hpe
      unfold shiftN at hsh
      split at hsh <;> omega
    rw [hstart]
  · intro i hfind hcon
    unfold OpamFile.AddPinDepend
    rw [hpin]
    simp only [Bool.false_eq_true, if_false]
    rw [hfind]
    dsimp only
    rw [hcon]
    simp only [Bool.false_eq_true, if_false]
    exact withLines_Lines _
  · intro hfind
    unfold OpamFile.AddPinDepend
    rw [hpin]
    simp only [Bool.false_eq_true, if_false]
    rw [hfind]
    dsimp only
    exact withLines_Lines _

/-- A manifest whose only entry for the package sits inside the indirect
region, for the upsert witness. -/
def c4WitFile : OpamFile := OpamFile.withLines
  [str "pin-depends: [",
   str "  ## begin indirect",
   str "  [\"extra.dev\" \"git+https://x/e#ee\"]",
   str "  ## end",
   str "]"]

def c4WitDep : PinDepend := ⟨str "extra", str "git+https://x/f", str "ff"⟩

theorem c4_upsert_amended_witness :
    (c4WitFile.AddPinDepend c4WitDep).Lines
      = insertAt (c4WitFile.pinDepends.startLine + 1) [c4WitDep.toLine]
          (c4WitFile.Lines.eraseIdx 2) :=
  (c4_upsert_amended c4WitFile c4WitDep (by decide) (by decide)).1 2
    (by decide) (by decide)

/-- Applying AddPinDepend to a file freshly produced by inserting the
rendered line right after the pin-depends open line finds that very line
first and leaves the lines unchanged. -/
theorem addPin_insert_stable (ls₁ : List Str) (d₁ p₁ i₁ : Region)
    (dep d' : PinDepend)
    (hfr : findRegions ls₁ = .ok (d₁, p₁, i₁)) (hpe : p₁.empty = false)
    (hparse : parsePinDependLine dep.toLine = some d')
    (hpkg : d'.Package = dep.Package)
    (hlen : p₁.startLine + 1 ≤ ls₁.length) :
    ((OpamFile.withLines
        (insertAt (p₁.startLine + 1) [dep.toLine] ls₁)).AddPinDepend dep).Lines
      = insertAt (p₁.startLine + 1) [dep.toLine] ls₁ := by
  have hneut : neutralLine dep.toLine := parsePinDependLine_neutral hparse
  have hins := findRegions_insert_neutral hfr hneut (by omega) hlen
  have hshape := findRegions_pinShape hfr hpe
  have hgpin : shiftRegion (p₁.startLine + 1) p₁ = ⟨p₁.startLine, p₁.endLine + 1⟩ := by
    unfold shiftRegion shiftN shiftE
    rw [if_neg (by omega), if_pos (by omega)]
  have hg : OpamFile.withLines (insertAt (p₁.startLine + 1) [dep.toLine] ls₁)
      = OpamFile.mk (insertAt (p₁.startLine + 1) [dep.toLine] ls₁)
        (shiftRegion (p₁.startLine + 1) d₁) ⟨p₁.startLine, p₁.endLine + 1⟩
        (shiftRegion (p₁.startLine + 1) i₁) := by
    unfold OpamFile.withLines
    rw [hins, hgpin]
  rw [hg]
  have hget : (insertAt (p₁.startLine + 1) [dep.toLine] ls₁).getD (p₁.startLine + 1) []
      = dep.toLine :=
    getD_insertAt_self ls₁ (p₁.startLine + 1) dep.toLine [] hlen
  have hgpe : Region.empty ⟨p₁.startLine, p₁.endLine + 1⟩ = false := by
    rw [show Region.empty ⟨p₁.startLine, p₁.endLine + 1⟩
        = decide (p₁.endLine + 1 ≤ p₁.startLine) from rfl]
    exact decide_eq_false (by omega)
  obtain ⟨k, hk⟩ : ∃ k, p₁.endLine - (p₁.startLine + 1) = k + 1 :=
    ⟨p₁.endLine - p₁.startLine - 2, by omega⟩
  have hpred : (fun i =>
      match parsePinDependLine
          ((insertAt (p₁.startLine + 1) [dep.toLine] ls₁).getD i []) with
      | some dd => dd.Package == dep.Package
      | none => false) (p₁.startLine + 1) = true := by
    dsimp only
    rw [hget, hparse]
    dsimp only
    rw [hpkg]
    exact beq_self_eq_true _
  have hfind : findFirstPinEntry
      (OpamFile.mk (insertAt (p₁.startLine + 1) [dep.toLine] ls₁)
        (shiftRegion (p₁.startLine + 1) d₁) ⟨p₁.startLine, p₁.endLine + 1⟩
        (shiftRegion (p₁.startLine + 1) i₁)) dep.Package
      = some (p₁.startLine + 1) := by
    unfold findFirstPinEntry innerNums rangeList
    dsimp only
    rw [show p₁.endLine + 1 - 1 = p₁.endLine from by omega, hk, List.range'_succ]
    exact List.find?_cons_of_pos _ hpred
  unfold OpamFile.AddPinDepend
  dsimp only
  rw [hgpe]
  simp only [Bool.false_eq_true, if_false]
  rw [hfind]
  dsimp only
  cases hcon : Region.Contains (shiftRegion (p₁.startLine + 1) i₁) (p₁.startLine + 1) with
  | false =>
    simp only [Bool.false_eq_true, if_false]
    rw [withLines_Lines]
    exact set_getD_self _ (p₁.startLine + 1) dep.toLine [] hget
  | true =>
    simp only [if_true]
    rw [eraseIdx_insertAt ls₁ (p₁.startLine + 1) dep.toLine hlen]
    have hwl1 : OpamFile.withLines ls₁ = OpamFile.mk ls₁ d₁ p₁ i₁ := by
      unfold OpamFile.withLines
      rw [hfr]
    rw [hwl1]
    dsimp only
    exact withLines_Lines _

/-- C7 (corrected, amended): for a well-formed file and a dependency whose
rendered line parses back with the same package, a second AddPinDepend of
the same dependency leaves the lines exactly as after the first. -/
theorem c7_idempotent_amended (f : OpamFile) (dep : PinDepend)
    (hWF : f.WF)
    (hpb : ∃ d', parsePinDependLine dep.toLine = some d'
      ∧ d'.Package = dep.Package) :
    ((f.AddPinDepend dep).AddPinDepend dep).Lines = (f.AddPinDepend dep).Lines := by
  obtain ⟨d', hparse, hpkg⟩ := hpb
  have hWF' : findRegions f.Lines
      = .ok (f.depends, f.pinDepends, f.indirectPinDepends) := hWF
  by_cases hpin : f.pinDepends.empty = true
  · have h1 : f.AddPinDepend dep = f := by
      unfold OpamFile.AddPinDepend
      rw [if_pos hpin]
    rw [h1, h1]
  · have hpin' : f.pinDepends.empty = false := Bool.eq_false_iff.mpr hpin
    have hlen1 : 1 ≤ f.Lines.length := nonempty_lines_of_region hWF' (Or.inr hpin')
    obtain ⟨hb1, hb2, hb3, hb4, hb5, hb6⟩ := findRegions_bounds hWF' hlen1
    cases hfind : findFirstPinEntry f dep.Package with
    | none =>
      have h1 : f.AddPinDepend dep
          = OpamFile.withLines
            (insertAt (f.pinDepends.startLine + 1) [dep.toLine] f.Lines) := by
        unfold OpamFile.AddPinDepend
        rw [hpin']
        simp only [Bool.false_eq_true, if_false]
        rw [hfind]
      rw [h1, withLines_Lines]
      exact addPin_insert_stable f.Lines f.depends f.pinDepends f.indirectPinDepends
        dep d' hWF' hpin' hparse hpkg (by omega)
    | some i =>
      obtain ⟨hi1, hi2, dd, hdd, hddp⟩ := findFirstPinEntry_mem hfind
      have hneut_i : neutralLine (f.Lines.getD i []) := parsePinDependLine_neutral hdd
      cases hcon : f.indirectPinDepends.Contains i with
      | true =>
        obtain ⟨d₂, p₂, ind₂, herased, hde, hpe2, hie⟩ :=
          findRegions_erase_neutral hWF' hneut_i (by omega) (by omega)
        have hwl1 : OpamFile.withLines (f.Lines.eraseIdx i)
            = OpamFile.mk (f.Lines.eraseIdx i) d₂ p₂ ind₂ := by
          unfold OpamFile.withLines
          rw [herased]
        have hstart : p₂.startLine = f.pinDepends.startLine := by
          have hsh : f.pinDepends.startLine = shiftN i p₂.startLine :=
            congrArg Region.startLine hpe2
          unfold shiftN at hsh
          split at hsh <;> omega
        have hp2e : p₂.empty = false := by
          have hshape := findRegions_pinShape hWF' hpin'
          have hend : f.pinDepends.endLine = shiftE i p₂.endLine :=
            congrArg Region.endLine hpe2
          unfold shiftE at hend
          rw [show p₂.empty = decide (p₂.endLine ≤ p₂.startLine) from rfl]
          refine decide_eq_false ?_
          split at hend <;> omega
        have h1 : f.AddPinDepend dep
            = OpamFile.withLines
              (insertAt (p₂.startLine + 1) [dep.toLine] (f.Lines.eraseIdx i)) := by
          unfold OpamFile.AddPinDepend
          rw [hpin']
          simp only [Bool.false_eq_true, if_false]
          rw [hfind]
          dsimp only
          rw [hcon]
          simp only [if_true]
          rw [hwl1]
        rw [h1, withLines_Lines]
        have hlen2 : p₂.startLine + 1 ≤ (f.Lines.eraseIdx i).length := by
          rw [List.length_eraseIdx_of_lt (by omega : i < f.Lines.length), hstart]
          omega
        exact addPin_insert_stable (f.Lines.eraseIdx i) d₂ p₂ ind₂ dep d'
          herased hp2e hparse hpkg hlen2
      | false =>
        have h1 : f.AddPinDepend dep = OpamFile.withLines (f.Lines.set i dep.toLine) := by
          unfold OpamFile.AddPinDepend
          rw [hpin']
          simp only [Bool.false_eq_true, if_false]
          rw [hfind]
          dsimp only
          rw [hcon]
          simp only [Bool.false_eq_true, if_false]
        rw [h1]
        have hneut_v : neutralLine dep.toLine := parsePinDependLine_neutral hparse
        have hsetreg : findRegions (f.Lines.set i dep.toLine) = findRegions f.Lines :=
          findRegions_set_neutral hneut_i hneut_v
        have hwl2 : OpamFile.withLines (f.Lines.set i dep.toLine)
            = OpamFile.mk (f.Lines.set i dep.toLine) f.depends f.pinDepends
              f.indirectPinDepends := by
          unfold OpamFile.withLines
          rw [hsetreg, hWF']
        rw [hwl2]
        have hfind2 : findFirstPinEntry
            (OpamFile.mk (f.Lines.set i dep.toLine) f.depends f.pinDepends
              f.indirectPinDepends) dep.Package = some i := by
          unfold findFirstPinEntry at hfind ⊢
          dsimp only
          rw [← hfind]
          apply find?_congr
          intro x hx
          by_cases hxi : x = i
          · subst hxi
            (try dsimp only)
            rw [getD_set_self (by omega : x < f.Lines.length), hparse, hdd]
            (try dsimp only)
            rw [hpkg, hddp]
          · (try dsimp only)
            rw [getD_set_ne (fun hh => hxi hh.symm)]
        have h2 : (OpamFile.mk (f.Lines.set i dep.toLine) f.depends f.pinDepends
              f.indirectPinDepends).AddPinDepend dep
            = OpamFile.withLines ((f.Lines.set i dep.toLine).set i dep.toLine) := by
          unfold OpamFile.AddPinDepend
          dsimp only
          rw [hpin']
          simp only [Bool.false_eq_true, if_false]
          rw [hfind2]
          dsimp only
          rw [hcon]
          simp only [Bool.false_eq_true, if_false]
        rw [h2, withLines_Lines, List.set_set]

theorem c7_idempotent_amended_witness :
    ((c7File.AddPinDepend c7WitDep).AddPinDepend c7WitDep).Lines
      = (c7File.AddPinDepend c7WitDep).Lines :=
  c7_idempotent_amended c7File c7WitDep (by decide)
    ⟨⟨str "extra", str "git+https://x/e", str "ee"⟩, rfl, rfl⟩

end Pcli